import Mathlib

/-!
Verification of the audio-alignment core of align-videos-by-sound
(src/align_videos_by_soundtrack/align.py) against its specification.

The development shallowly embeds the three core components:
* the Signature Extractor (mk_freq_trans_summary),
* the Delay Finder (find_delay),
* the Multi-File Delay Resolver (SyncDetector alignCore),
and proves or refutes the frozen specification claims about them.

Numeric conventions: Python ints become Nat or Int; the float quantities
that the claims depend on only through exact arithmetic and order
comparisons (seconds-valued delays, histogram bounds, FFT intensities)
become Rat.  Python exceptions become explicit error results (FindResult,
Option).
-/

namespace AlignVideos

/-! ### Frequency signatures

A frequency signature is the dictionary built by mk_freq_trans_summary:
frequency-bin index mapped to the list of window indices at which the
frequency was locally dominant.  We embed it as an association list. -/

/-- Association list from frequency-bin index to the time-window indices. -/
abbrev Sig : Type := List (Nat × List Nat)

/-- Keys of a signature, in association-list order. -/
def sigKeys (s : Sig) : List Nat := s.map Prod.fst

/-- Lookup of the time list of a frequency key (empty when absent). -/
def sigLookup (s : Sig) (k : Nat) : List Nat :=
  ((s.find? (fun e => e.1 == k)).map Prod.snd).getD []

/-- Embedding of the key intersection set(sample.keys) & set(orig.keys),
enumerated in sample-key order. -/
def sharedKeys (orig sample : Sig) : List Nat :=
  (sigKeys sample).filter (fun k => (sigKeys orig).contains k)

/-! ### Delay Finder (find_delay in align.py, lines 71-97) -/

/-- The sequence of all deltas x_i - x_j produced by the three nested
loops of find_delay: for every shared key, every sample time x_i and
every reference time x_j. -/
def occurrences (orig sample : Sig) : List Int :=
  (sharedKeys orig sample).flatMap (fun k =>
    (sigLookup sample k).flatMap (fun xi =>
      (sigLookup orig k).map (fun (xj : Nat) => (xi : Int) - (xj : Int))))

/-- Embedding of the bound test: mincond_ok and maxcond_ok.  A missing
bound (float nan in the source) is None and always passes. -/
def inRange (mn mx : Option Rat) (d : Int) : Bool :=
  (match mn with
   | none => true
   | some m => decide (m ≤ (d : Rat))) &&
  (match mx with
   | none => true
   | some M => decide ((d : Rat) ≤ M))

/-- One defaultdict(int) update: t_diffs[delta] += inc.  The key is
created (at the end, preserving dict insertion order) when absent. -/
def addVote (h : List (Int × Nat)) (d : Int) (inc : Nat) : List (Int × Nat) :=
  if (h.find? (fun e => e.1 == d)).isSome then
    h.map (fun e => if e.1 == d then (e.1, e.2 + inc) else e)
  else
    h ++ [(d, inc)]

/-- The delay histogram t_diffs: a vote of 1 for deltas inside the
bounds, a vote of 0 (still creating the key) for deltas outside them. -/
def histogram (orig sample : Sig) (mn mx : Option Rat) : List (Int × Nat) :=
  (occurrences orig sample).foldl
    (fun h d => addVote h d (if inRange mn mx d then 1 else 0)) []

/-- Comparison used by sorted(t_diffs.items(), key=lambda x: x[1]):
ascending vote count. -/
def countLE : Int × Nat → Int × Nat → Prop := fun a b => a.2 ≤ b.2

instance : DecidableRel countLE :=
  fun a b => inferInstanceAs (Decidable (a.2 ≤ b.2))

instance : IsTotal (Int × Nat) countLE :=
  ⟨fun a b => Nat.le_total a.2 b.2⟩

instance : IsTrans (Int × Nat) countLE :=
  ⟨fun _ _ _ hab hbc => Nat.le_trans hab hbc⟩

/-- Python sorted is a stable sort; insertion sort realizes exactly the
stable ascending-by-count order of the histogram items. -/
def sortByCount (h : List (Int × Nat)) : List (Int × Nat) :=
  List.insertionSort countLE h

/-- Result of a find_delay call.  noCorrelation embeds the explicit
"I could not find a match" exception; indexError embeds the IndexError
that t_diffs_sorted[-1] raises on an empty histogram. -/
inductive FindResult where
  | noCorrelation : FindResult
  | indexError : FindResult
  | ok : Int → FindResult
deriving DecidableEq, Repr

/-- Embedding of find_delay: intersect the keys, fail when the
intersection is empty, vote over all deltas, stable-sort ascending by
count and return the delta of the last entry. -/
def find_delay (orig sample : Sig) (mn mx : Option Rat) : FindResult :=
  if sharedKeys orig sample = [] then .noCorrelation
  else
    match (sortByCount (histogram orig sample mn mx)).getLast? with
    | none => .indexError
    | some e => .ok e.1

/-- Modelled from the spec: the alternative histogram construction that
"skip[s] out-of-range deltas entirely" instead of recording them with a
zero increment (spec section 4.2 step 3). -/
def histogramSkip (orig sample : Sig) (mn mx : Option Rat) : List (Int × Nat) :=
  ((occurrences orig sample).filter (inRange mn mx)).foldl
    (fun h d => addVote h d 1) []

/-- Modelled from the spec: the Delay Finder variant built on the
skipping histogram; the selection step is unchanged. -/
def find_delay_skip (orig sample : Sig) (mn mx : Option Rat) : FindResult :=
  if sharedKeys orig sample = [] then .noCorrelation
  else
    match (sortByCount (histogramSkip orig sample mn mx)).getLast? with
    | none => .indexError
    | some e => .ok e.1

/-! ### Signature Extractor (mk_freq_trans_summary, lines 39-68)

The FFT itself (np.abs(np.fft.fft(...))) is floating-point numerics that
none of the claims depend on; the embedding abstracts it as an arbitrary
spectrum function producing the per-window intensity list, and states the
claims for every such function. -/

/-- Triple (intensity, window index x, frequency index y) kept in a box. -/
abbrev Triple := Rat × Nat × Nat

/-- Python tuple comparison: strict lexicographic order on the triples. -/
def tripleLT (a b : Triple) : Prop :=
  a.1 < b.1 ∨ (a.1 = b.1 ∧ (a.2.1 < b.2.1 ∨ (a.2.1 = b.2.1 ∧ a.2.2 < b.2.2)))

instance (a b : Triple) : Decidable (tripleLT a b) := by
  unfold tripleLT; infer_instance

/-- Python binary min on tuples: the earlier argument wins ties. -/
def tmin (a b : Triple) : Triple := if tripleLT b a then b else a

/-- Python min over a nonempty list: leftmost minimum.  The [] case is
unreachable in the source (min of an empty sequence raises). -/
def minTriple : List Triple → Triple
  | [] => (0, 0, 0)
  | a :: t => t.foldl tmin a

/-- One boxes[(box_x, box_y)].append(triple) followed by the eviction
remove(min(...)) when the box exceeds maxes_per_box (lines 59-61). -/
def insertTriple (K : Nat) (l : List Triple) (t : Triple) : List Triple :=
  if K < (l ++ [t]).length then (l ++ [t]).erase (minTriple (l ++ [t]))
  else l ++ [t]

/-- The boxes defaultdict, as a total map from cell to its triple list. -/
abbrev Boxes := Nat × Nat → List Triple

/-- Pointwise update of one cell of the boxes map. -/
def updateBox (bs : Boxes) (c : Nat × Nat) (f : List Triple → List Triple) : Boxes :=
  fun d => if d = c then f (bs d) else bs d

/-- Length of the Python range(a, b, s) for a positive step s. -/
def pyRangeLen (a b s : Int) : Nat :=
  if 0 < s ∧ a < b then ((b - a + s - 1) / s).toNat else 0

/-- Enumerated window start offsets: enumerate(range(-overlap, len(data),
fft_bin_size - overlap)) from line 50, as (x, j) pairs. -/
def windowStarts (dataLen fft overlap : Nat) : List (Nat × Int) :=
  (List.range (pyRangeLen (-(overlap : Int)) dataLen ((fft : Int) - overlap))).map
    (fun x => (x, -(overlap : Int) + x * ((fft : Int) - overlap)))

/-- The windows surviving the full-length check of lines 51-52:
sample_data = data[max(0, j) : max(0, j) + fft_bin_size], kept only when
its length equals fft_bin_size.  Int.toNat realizes max(0, j). -/
def fullWindows (data : List Rat) (fft overlap : Nat) : List (Nat × List Rat) :=
  (windowStarts data.length fft overlap).filterMap (fun xj =>
    if ((data.drop xj.2.toNat).take fft).length = fft then
      some (xj.1, (data.drop xj.2.toNat).take fft)
    else none)

/-- Inner loop of lines 55-61 for one full window: every frequency index
y below len(intensities) / 2 inserts its triple into cell
(x / box_width, y / box_height). -/
def processWindow (boxH boxW K : Nat) (bs : Boxes) (x : Nat) (intens : List Rat) : Boxes :=
  (List.range (intens.length / 2)).foldl
    (fun b y => updateBox b (x / boxW, y / boxH)
      (fun l => insertTriple K l (intens.getD y 0, x, y))) bs

/-- The boxes map after all windows of the buffer are processed. -/
def mkBoxes (spectrum : List Rat → List Rat) (data : List Rat)
    (fft overlap boxH boxW K : Nat) : Boxes :=
  (fullWindows data fft overlap).foldl
    (fun bs xw => processWindow boxH boxW K bs xw.1 (spectrum xw.2)) (fun _ => [])

/-- One freqs_dict[y].append(x) update (defaultdict(list), line 65). -/
def sigAppend (s : Sig) (y x : Nat) : Sig :=
  if (s.find? (fun e => e.1 == y)).isSome then
    s.map (fun e => if e.1 == y then (e.1, e.2 ++ [x]) else e)
  else s ++ [(y, [x])]

/-- Flattening loop of lines 63-65: every triple retained in a cell
contributes its window index x to the list of its frequency y.  The
cell enumeration order (dict key order in Python) is a parameter. -/
def flattenBoxes (bs : Boxes) (cells : List (Nat × Nat)) : Sig :=
  cells.foldl (fun s c => (bs c).foldl (fun s2 t => sigAppend s2 t.2.2 t.2.1) s) []

/-! ### Multi-File Delay Resolver (SyncDetector, lines 194-238) -/

/-- One entry of known_delay_map with the files.index lookups already
applied: an index that is not below the file count models a path absent
from the current run (files.index raises ValueError and the entry is
silently skipped). -/
structure KdmEntry where
  target : Nat
  base : Nat
  min? : Option Rat
  max? : Option Rat
deriving DecidableEq, Repr

/-- Association map from an index pair to a delay in seconds
(the Python dicts result1 and result2). -/
abbrev DelayMap := List ((Nat × Nat) × Rat)

/-- Dict assignment m[k] = v: overwrite in place, else append. -/
def setPair (m : DelayMap) (k : Nat × Nat) (v : Rat) : DelayMap :=
  if (m.find? (fun e => e.1 == k)).isSome then
    m.map (fun e => if e.1 == k then (k, v) else e)
  else m ++ [(k, v)]

/-- Dict lookup m[k]. -/
def lookupPair (m : DelayMap) (k : Nat × Nat) : Option Rat :=
  (m.find? (fun e => e.1 == k)).map Prod.snd

/-- Dict membership k in m. -/
def hasPair (m : DelayMap) (k : Nat × Nat) : Bool :=
  (m.find? (fun e => e.1 == k)).isSome

/-- One iteration of the known_delay_map loop (lines 197-208): a
resolvable constraint stores -delay / samps_per_sec at key
(base, target), computed with the bounds scaled from seconds to window
units; a failing find_delay propagates as None (the exception aborts
the resolution). -/
def constraintStep (sigs : List Sig) (samps : Rat) (r1 : DelayMap) (e : KdmEntry) :
    Option DelayMap :=
  if e.target < sigs.length ∧ e.base < sigs.length then
    match find_delay (sigs.getD e.base []) (sigs.getD e.target [])
        (e.min?.map (fun m => m * samps)) (e.max?.map (fun m => m * samps)) with
    | .ok d => some (setPair r1 (e.base, e.target) (-(d : Rat) / samps))
    | _ => none
  else some r1

/-- The whole known_delay_map loop, in dict order of the entries. -/
def constraintPass (sigs : List Sig) (samps : Rat) (kdm : List KdmEntry) :
    Option DelayMap :=
  kdm.foldlM (constraintStep sigs samps) []

/-- One iteration of the base-relative loop (lines 211-218) for index
i + 1: use the constrained edge (0, i+1) if present, else the negated
reverse edge (i+1, 0), else an unconstrained direct find_delay against
file 0. -/
def baseStep (sigs : List Sig) (samps : Rat) (r1 : DelayMap) (r2 : DelayMap) (i : Nat) :
    Option DelayMap :=
  if hasPair r1 (0, i + 1) then
    some (setPair r2 (0, i + 1) ((lookupPair r1 (0, i + 1)).getD 0))
  else if hasPair r1 (i + 1, 0) then
    some (setPair r2 (0, i + 1) (-((lookupPair r1 (i + 1, 0)).getD 0)))
  else
    match find_delay (sigs.getD 0 []) (sigs.getD (i + 1) []) none none with
    | .ok d => some (setPair r2 (0, i + 1) (-(d : Rat) / samps))
    | _ => none

/-- The base-relative loop, seeded with result2[(0,0)] = 0. -/
def basePass (sigs : List Sig) (samps : Rat) (r1 : DelayMap) : Option DelayMap :=
  (List.range (sigs.length - 1)).foldlM (baseStep sigs samps r1) [((0, 0), 0)]

/-- One body execution of the chain-propagation inner loop (lines
227-231) for the sorted constraint key ibit at inner index i. -/
def propagateStep (r1 : DelayMap) (ibit : Nat × Nat) (r2 : DelayMap) (i : Nat) : DelayMap :=
  if 0 < ibit.1 ∧ ibit.2 = i + 1 ∧ hasPair r1 (0, i + 1) = false ∧
      hasPair r1 (i + 1, 0) = false then
    setPair r2 (0, ibit.2)
      (((lookupPair r2 (0, ibit.1)).getD 0) - ((lookupPair r1 ibit).getD 0))
  else if 0 < ibit.2 ∧ ibit.1 = i + 1 ∧ hasPair r1 (0, i + 1) = false ∧
      hasPair r1 (i + 1, 0) = false then
    setPair r2 (0, ibit.1)
      (((lookupPair r2 (0, ibit.2)).getD 0) + ((lookupPair r1 ibit).getD 0))
  else r2

/-- Ascending lexicographic order on index pairs, the order of
sorted(result1.keys()). -/
def keyLE : Nat × Nat → Nat × Nat → Prop := fun a b =>
  a.1 < b.1 ∨ (a.1 = b.1 ∧ a.2 ≤ b.2)

instance : DecidableRel keyLE := by
  intro a b; unfold keyLE; infer_instance

instance : IsTotal (Nat × Nat) keyLE := by
  constructor
  intro a b
  rcases Nat.lt_trichotomy a.1 b.1 with h | h | h
  · exact Or.inl (Or.inl h)
  · rcases Nat.le_total a.2 b.2 with h2 | h2
    · exact Or.inl (Or.inr ⟨h, h2⟩)
    · exact Or.inr (Or.inr ⟨h.symm, h2⟩)
  · exact Or.inr (Or.inl h)

instance : IsTrans (Nat × Nat) keyLE := by
  constructor
  intro a b c hab hbc
  rcases hab with h | ⟨he, h2⟩
  · rcases hbc with h3 | ⟨he3, _⟩
    · exact Or.inl (Nat.lt_trans h h3)
    · exact Or.inl (he3 ▸ h)
  · rcases hbc with h3 | ⟨he3, h4⟩
    · exact Or.inl (he ▸ h3)
    · exact Or.inr ⟨he.trans he3, Nat.le_trans h2 h4⟩

/-- The chain-propagation loop of lines 226-231: edges in sorted key
order, inner loop over i in range(len(files) - 1). -/
def propagatePass (n : Nat) (r1 : DelayMap) (r2 : DelayMap) : DelayMap :=
  (List.insertionSort keyLE (r1.map Prod.fst)).foldl
    (fun m k => (List.range (n - 1)).foldl (propagateStep r1 k) m) r2

/-- Minimum of a numpy array; every reachable call is on a nonempty
list (numpy raises on an empty one). -/
def npMin (l : List Rat) : Rat :=
  match l with
  | [] => 0
  | a :: t => t.foldl min a

/-- Maximum of a numpy array, as npMin. -/
def npMax (l : List Rat) : Rat :=
  match l with
  | [] => 0
  | a :: t => t.foldl max a

/-- The resolved delay vector (line 234).  The passes create the keys
(0, 0), (0, 1), ... in ascending order and only ever overwrite in
place, so the sorted-keys readout of the source is the list order. -/
def resolvedDelays (sigs : List Sig) (samps : Rat) (kdm : List KdmEntry) :
    Option (List Rat) := do
  let r1 ← constraintPass sigs samps kdm
  let r2 ← basePass sigs samps r1
  pure ((propagatePass sigs.length r1 r2).map Prod.snd)

/-- The pad/trim normalization of lines 235-238:
pad = delays - delays.min(); trim = -(pad - pad.max()). -/
def alignCore (sigs : List Sig) (samps : Rat) (kdm : List KdmEntry) :
    Option (List Rat × List Rat) := do
  let ds ← resolvedDelays sigs samps kdm
  pure (ds.map (fun d => d - npMin ds),
    (ds.map (fun d => d - npMin ds)).map
      (fun p => -(p - npMax (ds.map (fun d => d - npMin ds)))))

/-! ### Cache key (SyncDetector, lines 163-178) -/

/-- Extraction parameters entering the cache key: exaud_args
(sample_rate, file path via video_file, duration, afilter) plus the
summary parameters of lines 167-173. -/
structure ExtractParams where
  sample_rate : Nat
  duration : Rat
  afilter : String
  fft_bin_size : Nat
  overlap : Nat
  box_height : Nat
  box_width : Nat
  samples_per_box : Nat
deriving DecidableEq, Repr

/-- File-system state of one input file, as far as the cache key is
concerned: its path, its modification time and its access time. -/
structure FileStat where
  path : String
  mtime : Int
  atime : Int
deriving DecidableEq, Repr

/-- The argument record handed to make_cache_key. -/
structure CacheArgs where
  params : ExtractParams
  path : String
  atime : Int
deriving DecidableEq, Repr

/-- Modelled from the spec: _cache.make_cache_key lives outside src/;
the spec requires a cache key derived deterministically from its inputs
and changing when any keyed component changes, so the key is modelled
as the tuple of the arguments the caller passes. -/
def make_cache_key (a : CacheArgs) : CacheArgs := a

/-- The cache key align.py builds at lines 166-175: the extraction
parameters, the file path, and os.path.getatime of the file - the
access time, not the modification time. -/
def alignCacheKey (p : ExtractParams) (f : FileStat) : CacheArgs :=
  make_cache_key { params := p, path := f.path, atime := f.atime }

/-! ### Generic fold helpers -/

theorem foldl_preserves {α β : Type} (P : β → Prop) (f : β → α → β) :
    ∀ (l : List α) (b : β), P b → (∀ b2 a, P b2 → P (f b2 a)) → P (l.foldl f b) := by
  intro l
  induction l with
  | nil => intro b hb _; exact hb
  | cons a t ih => intro b hb hf; exact ih (f b a) (hf b a hb) hf

theorem find?_cons_neg {α : Type} (p : α → Bool) (a : α) (l : List α)
    (h : ¬ p a = true) : (a :: l).find? p = l.find? p :=
  List.find?_cons_of_neg l h

theorem find?_cons_pos {α : Type} (p : α → Bool) (a : α) (l : List α)
    (h : p a = true) : (a :: l).find? p = some a :=
  List.find?_cons_of_pos l h

theorem foldlM_none {α β : Type} (f : β → α → Option β) (x : α) (hf : ∀ b, f b x = none) :
    ∀ (l : List α) (b : β), x ∈ l → l.foldlM f b = none := by
  intro l
  induction l with
  | nil => intro b hx; cases hx
  | cons a t ih =>
    intro b hx
    rcases List.mem_cons.mp hx with h | h
    · subst h
      simp [List.foldlM_cons, hf b]
    · cases hfa : f b a with
      | none => simp [List.foldlM_cons, hfa]
      | some b2 => simp [List.foldlM_cons, hfa, ih b2 h]

/-! ### Histogram lemmas -/

/-- One voting step of the histogram fold. -/
def voteStep (mn mx : Option Rat) (h : List (Int × Nat)) (d : Int) : List (Int × Nat) :=
  addVote h d (if inRange mn mx d then 1 else 0)

theorem histogram_eq_foldl (orig sample : Sig) (mn mx : Option Rat) :
    histogram orig sample mn mx = (occurrences orig sample).foldl (voteStep mn mx) [] := rfl

theorem addVote_ne_nil (h : List (Int × Nat)) (d : Int) (inc : Nat) : addVote h d inc ≠ [] := by
  unfold addVote
  cases h with
  | nil => simp
  | cons e t => split <;> simp

theorem addVote_map_fst (h : List (Int × Nat)) (d : Int) (inc : Nat) :
    (addVote h d inc).map Prod.fst =
      if (h.find? (fun e => e.1 == d)).isSome then h.map Prod.fst
      else h.map Prod.fst ++ [d] := by
  unfold addVote
  split
  · rw [List.map_map]
    refine List.map_congr_left ?_
    intro e _
    show (if (e.1 == d) = true then (e.1, e.2 + inc) else e).1 = e.1
    split <;> rfl
  · simp

theorem mem_map_fst_iff_find? (h : List (Int × Nat)) (d : Int) :
    (h.find? (fun e => e.1 == d)).isSome ↔ d ∈ h.map Prod.fst := by
  rw [List.find?_isSome]
  constructor
  · rintro ⟨e, he, hd⟩
    exact List.mem_map.mpr ⟨e, he, by simpa using hd⟩
  · intro hd
    rcases List.mem_map.mp hd with ⟨e, he, hd2⟩
    exact ⟨e, he, by simp [hd2]⟩

theorem addVote_key_inv {Q : Int → Prop} {h : List (Int × Nat)} {d : Int} {inc : Nat}
    (hh : ∀ e ∈ h, Q e.1) (hd : Q d) : ∀ e ∈ addVote h d inc, Q e.1 := by
  intro e he
  unfold addVote at he
  split at he
  · rcases List.mem_map.mp he with ⟨e0, he0, heq⟩
    subst heq
    split
    · exact hh e0 he0
    · exact hh e0 he0
  · rcases List.mem_append.mp he with h2 | h2
    · exact hh e h2
    · rcases List.mem_singleton.mp h2 with rfl
      exact hd

theorem addVote_all_zero {h : List (Int × Nat)} {d : Int}
    (hh : ∀ e ∈ h, e.2 = 0) : ∀ e ∈ addVote h d 0, e.2 = 0 := by
  intro e he
  unfold addVote at he
  split at he
  · rcases List.mem_map.mp he with ⟨e0, he0, heq⟩
    subst heq
    split
    · simpa using hh e0 he0
    · exact hh e0 he0
  · rcases List.mem_append.mp he with h2 | h2
    · exact hh e h2
    · rcases List.mem_singleton.mp h2 with rfl
      rfl

theorem voteStep_range_zero {mn mx : Option Rat} {h : List (Int × Nat)} {d : Int}
    (hh : ∀ e ∈ h, inRange mn mx e.1 = false → e.2 = 0) :
    ∀ e ∈ voteStep mn mx h d, inRange mn mx e.1 = false → e.2 = 0 := by
  intro e he
  unfold voteStep addVote at he
  split at he
  · rcases List.mem_map.mp he with ⟨e0, he0, heq⟩
    subst heq
    split
    · rename_i hc
      intro hr
      have he0d : e0.1 = d := by simpa using hc
      have : e0.2 = 0 := hh e0 he0 hr
      simp only [this]
      rw [he0d] at hr
      simp [hr]
    · exact hh e0 he0
  · rcases List.mem_append.mp he with h2 | h2
    · exact hh e h2
    · rcases List.mem_singleton.mp h2 with rfl
      intro hr
      simp only at hr
      simp [hr]

theorem voteStep_range_pos {mn mx : Option Rat} {h : List (Int × Nat)} {d : Int}
    (hh : ∀ e ∈ h, inRange mn mx e.1 = true → 0 < e.2) :
    ∀ e ∈ voteStep mn mx h d, inRange mn mx e.1 = true → 0 < e.2 := by
  intro e he
  unfold voteStep addVote at he
  split at he
  · rcases List.mem_map.mp he with ⟨e0, he0, heq⟩
    subst heq
    split
    · rename_i hc
      intro hr
      have he0d : e0.1 = d := by simpa using hc
      simp only at hr ⊢
      rw [he0d] at hr
      simp only [hr, if_true]
      omega
    · exact hh e0 he0
  · rcases List.mem_append.mp he with h2 | h2
    · exact hh e h2
    · rcases List.mem_singleton.mp h2 with rfl
      intro hr
      simp only at hr ⊢
      simp [hr]

theorem addVote_key_mem (h : List (Int × Nat)) (d : Int) (inc : Nat) :
    d ∈ (addVote h d inc).map Prod.fst := by
  rw [addVote_map_fst]
  split
  · rename_i hs
    exact (mem_map_fst_iff_find? h d).mp hs
  · simp

theorem addVote_key_mono (h : List (Int × Nat)) (d k : Int) (inc : Nat)
    (hk : k ∈ h.map Prod.fst) : k ∈ (addVote h d inc).map Prod.fst := by
  rw [addVote_map_fst]
  split
  · exact hk
  · simp [hk]

theorem addVote_nodup (h : List (Int × Nat)) (d : Int) (inc : Nat)
    (hn : (h.map Prod.fst).Nodup) : ((addVote h d inc).map Prod.fst).Nodup := by
  rw [addVote_map_fst]
  split
  · exact hn
  · rename_i hs
    have : d ∉ h.map Prod.fst := fun hd => hs ((mem_map_fst_iff_find? h d).mpr hd)
    simp [List.nodup_append, hn, this]

theorem foldl_voteStep_key_inv (mn mx : Option Rat) (Q : Int → Prop) :
    ∀ (occ : List Int) (h0 : List (Int × Nat)), (∀ e ∈ h0, Q e.1) → (∀ d ∈ occ, Q d) →
      ∀ e ∈ occ.foldl (voteStep mn mx) h0, Q e.1 := by
  intro occ
  induction occ with
  | nil => intro h0 hh _; simpa using hh
  | cons d t ih =>
    intro h0 hh hq
    simp only [List.foldl_cons]
    exact ih _ (addVote_key_inv hh (hq d (by simp))) (fun x hx => hq x (by simp [hx]))

theorem histogram_keys_mem (orig sample : Sig) (mn mx : Option Rat) :
    ∀ e ∈ histogram orig sample mn mx, e.1 ∈ occurrences orig sample := by
  rw [histogram_eq_foldl]
  exact foldl_voteStep_key_inv mn mx _ (occurrences orig sample) [] (by simp) (fun d hd => hd)

theorem histogram_ne_nil (orig sample : Sig) (mn mx : Option Rat)
    (h : occurrences orig sample ≠ []) : histogram orig sample mn mx ≠ [] := by
  rw [histogram_eq_foldl]
  rcases hocc : occurrences orig sample with _ | ⟨d, occ⟩
  · exact absurd hocc h
  · simp only [List.foldl_cons]
    exact foldl_preserves (fun m => m ≠ []) (voteStep mn mx) occ _
      (addVote_ne_nil _ _ _) (fun b a _ => addVote_ne_nil _ _ _)

theorem histogram_nodup (orig sample : Sig) (mn mx : Option Rat) :
    ((histogram orig sample mn mx).map Prod.fst).Nodup := by
  rw [histogram_eq_foldl]
  exact foldl_preserves (fun m => (m.map Prod.fst).Nodup) (voteStep mn mx)
    (occurrences orig sample) [] (by simp) (fun b a hb => addVote_nodup _ _ _ hb)

theorem histogram_range_zero (orig sample : Sig) (mn mx : Option Rat) :
    ∀ e ∈ histogram orig sample mn mx, inRange mn mx e.1 = false → e.2 = 0 := by
  rw [histogram_eq_foldl]
  apply foldl_preserves (fun m => ∀ e ∈ m, inRange mn mx e.1 = false → e.2 = 0)
    (voteStep mn mx) (occurrences orig sample) []
  · simp
  · exact fun b a hb => voteStep_range_zero hb

theorem histogram_range_pos (orig sample : Sig) (mn mx : Option Rat) :
    ∀ e ∈ histogram orig sample mn mx, inRange mn mx e.1 = true → 0 < e.2 := by
  rw [histogram_eq_foldl]
  apply foldl_preserves (fun m => ∀ e ∈ m, inRange mn mx e.1 = true → 0 < e.2)
    (voteStep mn mx) (occurrences orig sample) []
  · simp
  · exact fun b a hb => voteStep_range_pos hb

theorem histogram_all_zero (orig sample : Sig) (mn mx : Option Rat)
    (h : ∀ d ∈ occurrences orig sample, inRange mn mx d = false) :
    ∀ e ∈ histogram orig sample mn mx, e.2 = 0 := by
  intro e he
  rcases hr : inRange mn mx e.1 with _ | _
  · exact histogram_range_zero orig sample mn mx e he hr
  · exact absurd hr (by simp [h e.1 (histogram_keys_mem orig sample mn mx e he)])

theorem foldl_voteStep_mem_key (mn mx : Option Rat) :
    ∀ (occ : List Int) (h0 : List (Int × Nat)) (δ : Int),
      (δ ∈ occ ∨ δ ∈ h0.map Prod.fst) →
      δ ∈ (occ.foldl (voteStep mn mx) h0).map Prod.fst := by
  intro occ
  induction occ with
  | nil =>
    intro h0 δ hδ
    rcases hδ with h | h
    · cases h
    · simpa using h
  | cons d t ih =>
    intro h0 δ hδ
    simp only [List.foldl_cons]
    rcases hδ with h | h
    · rcases List.mem_cons.mp h with rfl | h2
      · exact ih _ δ (Or.inr (addVote_key_mem h0 δ _))
      · exact ih _ δ (Or.inl h2)
    · exact ih _ δ (Or.inr (addVote_key_mono h0 d δ _ h))

theorem histogram_mem_key (orig sample : Sig) (mn mx : Option Rat) (δ : Int)
    (h : δ ∈ occurrences orig sample) :
    δ ∈ (histogram orig sample mn mx).map Prod.fst := by
  rw [histogram_eq_foldl]
  exact foldl_voteStep_mem_key mn mx (occurrences orig sample) [] δ (Or.inl h)

theorem filter_map_upd (p : Int → Bool) (upd : Int × Nat → Int × Nat)
    (hupd : ∀ e, (upd e).1 = e.1) :
    ∀ h : List (Int × Nat),
      (h.map upd).filter (fun e => p e.1) = (h.filter (fun e => p e.1)).map upd := by
  intro h
  induction h with
  | nil => rfl
  | cons a t ih =>
    simp only [List.map_cons, List.filter_cons, hupd a]
    rcases hp : p a.1 with _ | _
    · simpa using ih
    · simpa using ih

theorem addVote_filter_true (p : Int → Bool) (h : List (Int × Nat)) (d : Int) (inc : Nat)
    (hd : p d = true) :
    (addVote h d inc).filter (fun e => p e.1) =
      addVote (h.filter (fun e => p e.1)) d inc := by
  have hmem : (h.find? (fun e => e.1 == d)).isSome ↔
      ((h.filter (fun e => p e.1)).find? (fun e => e.1 == d)).isSome := by
    rw [mem_map_fst_iff_find?, mem_map_fst_iff_find?]
    constructor
    · intro hk
      rcases List.mem_map.mp hk with ⟨e, he, hfst⟩
      refine List.mem_map.mpr ⟨e, List.mem_filter.mpr ⟨he, ?_⟩, hfst⟩
      show p e.1 = true
      rw [show e.1 = d from hfst, hd]
    · intro hk
      rcases List.mem_map.mp hk with ⟨e, he, hfst⟩
      exact List.mem_map.mpr ⟨e, (List.mem_filter.mp he).1, hfst⟩
  unfold addVote
  by_cases hs : (h.find? (fun e => e.1 == d)).isSome
  · rw [if_pos hs, if_pos (hmem.mp hs)]
    exact filter_map_upd p _ (fun e => by
      show (if (e.1 == d) = true then (e.1, e.2 + inc) else e).1 = e.1
      split <;> rfl) h
  · rw [if_neg hs, if_neg (fun hx => hs (hmem.mpr hx))]
    rw [List.filter_append]
    simp [hd]

theorem addVote_filter_false (p : Int → Bool) (h : List (Int × Nat)) (d : Int)
    (hd : p d = false) :
    (addVote h d 0).filter (fun e => p e.1) = h.filter (fun e => p e.1) := by
  unfold addVote
  split
  · have heq : (h.map (fun e => if e.1 == d then (e.1, e.2 + 0) else e)) = h := by
      conv_rhs => rw [← List.map_id h]
      refine List.map_congr_left ?_
      intro e _
      show (if (e.1 == d) = true then (e.1, e.2 + 0) else e) = id e
      split <;> rfl
    rw [heq]
  · rw [List.filter_append]
    simp [hd]

theorem foldl_voteStep_filter (mn mx : Option Rat) :
    ∀ (occ : List Int) (h0 : List (Int × Nat)),
      (occ.foldl (voteStep mn mx) h0).filter (fun e => inRange mn mx e.1) =
      (occ.filter (inRange mn mx)).foldl (fun h d => addVote h d 1)
        (h0.filter (fun e => inRange mn mx e.1)) := by
  intro occ
  induction occ with
  | nil => intro h0; rfl
  | cons d t ih =>
    intro h0
    rcases hd : inRange mn mx d with _ | _
    · have h1 : voteStep mn mx h0 d = addVote h0 d 0 := by simp [voteStep, hd]
      have h2 : (d :: t).filter (inRange mn mx) = t.filter (inRange mn mx) := by
        simp [List.filter_cons, hd]
      rw [List.foldl_cons, h1, h2, ih, addVote_filter_false _ _ _ hd]
    · have h1 : voteStep mn mx h0 d = addVote h0 d 1 := by simp [voteStep, hd]
      have h2 : (d :: t).filter (inRange mn mx) = d :: t.filter (inRange mn mx) := by
        simp [List.filter_cons, hd]
      rw [List.foldl_cons, h1, h2, ih, List.foldl_cons, addVote_filter_true _ _ _ _ hd]

theorem histogramSkip_eq (orig sample : Sig) (mn mx : Option Rat) :
    histogramSkip orig sample mn mx =
      (histogram orig sample mn mx).filter (fun e => inRange mn mx e.1) := by
  rw [histogram_eq_foldl, foldl_voteStep_filter]
  rfl

/-! ### Selection lemmas: last element of the stable ascending sort -/

theorem insertionSort_eq_nil_iff {l : List (Int × Nat)} :
    List.insertionSort countLE l = [] ↔ l = [] := by
  constructor
  · intro h
    have hp := List.perm_insertionSort countLE l
    rw [h] at hp
    exact (List.Perm.nil_eq hp).symm
  · intro h
    rw [h]
    rfl

theorem sorted_getLast_max :
    ∀ (l : List (Int × Nat)) (e : Int × Nat), List.Sorted countLE l → l.getLast? = some e →
      ∀ x ∈ l, x.2 ≤ e.2 := by
  intro l
  induction l with
  | nil => intro e _ he; cases he
  | cons a t ih =>
    intro e hs he x hx
    rcases t with _ | ⟨b, t2⟩
    · have hae : a = e := by simpa using he
      rcases List.mem_singleton.mp hx with rfl
      rw [hae]
    · have he2 : (b :: t2).getLast? = some e := by
        rw [List.getLast?_cons_cons] at he
        exact he
      rcases List.mem_cons.mp hx with rfl | hx2
      · have hmem : e ∈ b :: t2 := List.mem_of_mem_getLast? he2
        exact List.rel_of_sorted_cons hs e hmem
      · exact ih e hs.of_cons he2 x hx2

theorem getLast?_orderedInsert (x : Int × Nat) :
    ∀ (s : List (Int × Nat)), List.Sorted countLE s →
      (List.orderedInsert countLE x s).getLast? =
        some ((s.getLast?).elim x (fun b => if x.2 ≤ b.2 then b else x)) := by
  intro s
  induction s with
  | nil => intro _; rfl
  | cons a t ih =>
    intro hs
    by_cases hc : countLE x a
    · rw [List.orderedInsert_of_le _ _ hc, List.getLast?_cons_cons]
      rcases hl : (a :: t).getLast? with _ | b
      · simp at hl
      · have hb : countLE x b := by
          have hmem : b ∈ a :: t := List.mem_of_mem_getLast? hl
          rcases List.mem_cons.mp hmem with rfl | hmem2
          · exact hc
          · exact IsTrans.trans x a b hc (List.rel_of_sorted_cons hs b hmem2)
        have hb2 : x.2 ≤ b.2 := hb
        simp [Option.elim, hb2]
    · have hoi : List.orderedInsert countLE x (a :: t) =
          a :: List.orderedInsert countLE x t := by
        simp [List.orderedInsert, hc]
      rw [hoi]
      rcases ho : List.orderedInsert countLE x t with _ | ⟨c, s2⟩
      · have := List.orderedInsert_length countLE t x
        rw [ho] at this
        simp at this
      · rw [List.getLast?_cons_cons, ← ho, ih hs.of_cons]
        rcases t with _ | ⟨b, t2⟩
        · have hxa : ¬ x.2 ≤ a.2 := hc
          simp [Option.elim, hxa]
        · rw [List.getLast?_cons_cons]

theorem getLast?_sort_all_zero (x : Int × Nat) (hxpos : 0 < x.2) (m : List (Int × Nat))
    (hm : ∀ e ∈ m, e.2 = 0) :
    ((List.insertionSort countLE m).getLast?).elim x
      (fun b => if x.2 ≤ b.2 then b else x) = x := by
  rcases hls : (List.insertionSort countLE m).getLast? with _ | b
  · rfl
  · have hb : b ∈ m :=
      (List.perm_insertionSort countLE m).subset (List.mem_of_mem_getLast? hls)
    have hb0 : b.2 = 0 := hm b hb
    have hxb : ¬ x.2 ≤ b.2 := by omega
    simp [Option.elim, hxb]

theorem getLast?_sort_filter (p : Int × Nat → Bool) :
    ∀ (l : List (Int × Nat)),
      (∀ e ∈ l, p e = false → e.2 = 0) →
      (∃ e ∈ l, p e = true ∧ 0 < e.2) →
      (List.insertionSort countLE (l.filter p)).getLast? =
        (List.insertionSort countLE l).getLast? := by
  intro l
  induction l with
  | nil =>
    intro _ hex
    rcases hex with ⟨e, he, _⟩
    cases he
  | cons x l ih =>
    intro hz hex
    rcases hp : p x with _ | _
    · have hx0 : x.2 = 0 := hz x (by simp) hp
      have hex2 : ∃ e ∈ l, p e = true ∧ 0 < e.2 := by
        rcases hex with ⟨e, he, hpe, hpos⟩
        rcases List.mem_cons.mp he with rfl | he2
        · rw [hp] at hpe
          cases hpe
        · exact ⟨e, he2, hpe, hpos⟩
      have hlne : l ≠ [] := by
        rcases hex2 with ⟨e, he, _⟩
        intro hnil
        rw [hnil] at he
        cases he
      have hf : (x :: l).filter p = l.filter p := by simp [List.filter_cons, hp]
      rw [hf]
      show (List.insertionSort countLE (l.filter p)).getLast? =
        (List.orderedInsert countLE x (List.insertionSort countLE l)).getLast?
      rcases hs : List.insertionSort countLE l with _ | ⟨c, s⟩
      · exact absurd (insertionSort_eq_nil_iff.mp hs) hlne
      · have hxc : countLE x c := by
          show x.2 ≤ c.2
          rw [hx0]
          exact Nat.zero_le _
        rw [List.orderedInsert_of_le _ _ hxc, List.getLast?_cons_cons, ← hs]
        exact ih (fun e he hpe => hz e (by simp [he]) hpe) hex2
    · have hf : (x :: l).filter p = x :: l.filter p := by simp [List.filter_cons, hp]
      rw [hf]
      show (List.orderedInsert countLE x (List.insertionSort countLE (l.filter p))).getLast? =
        (List.orderedInsert countLE x (List.insertionSort countLE l)).getLast?
      rw [getLast?_orderedInsert x _ (List.sorted_insertionSort countLE _),
          getLast?_orderedInsert x _ (List.sorted_insertionSort countLE _)]
      by_cases hex2 : ∃ e ∈ l, p e = true ∧ 0 < e.2
      · rw [ih (fun e he hpe => hz e (by simp [he]) hpe) hex2]
      · have hall : ∀ e ∈ l, e.2 = 0 := by
          intro e he
          rcases hpe : p e with _ | _
          · exact hz e (by simp [he]) hpe
          · by_contra hne
            exact hex2 ⟨e, he, hpe, Nat.pos_of_ne_zero hne⟩
        have hxpos : 0 < x.2 := by
          rcases hex with ⟨e, he, hpe, hpos⟩
          rcases List.mem_cons.mp he with rfl | he2
          · exact hpos
          · have := hall e he2
            omega
        rw [getLast?_sort_all_zero x hxpos (l.filter p)
            (fun e he => hall e (List.mem_of_mem_filter he)),
          getLast?_sort_all_zero x hxpos l hall]

/-! ### Occurrence and signature lookup lemmas -/

theorem mem_occurrences (orig sample : Sig) (k xi xj : Nat)
    (hk : k ∈ sharedKeys orig sample) (hxi : xi ∈ sigLookup sample k)
    (hxj : xj ∈ sigLookup orig k) :
    ((xi : Int) - (xj : Int)) ∈ occurrences orig sample := by
  unfold occurrences
  simp only [List.mem_flatMap, List.mem_map]
  exact ⟨k, hk, xi, hxi, xj, hxj, rfl⟩

theorem occurrences_mem_decomp (orig sample : Sig) (d : Int)
    (hd : d ∈ occurrences orig sample) :
    ∃ k ∈ sharedKeys orig sample, ∃ xi ∈ sigLookup sample k, ∃ xj ∈ sigLookup orig k,
      d = (xi : Int) - (xj : Int) := by
  unfold occurrences at hd
  simp only [List.mem_flatMap, List.mem_map] at hd
  rcases hd with ⟨k, hk, xi, hxi, xj, hxj, heq⟩
  exact ⟨k, hk, xi, hxi, xj, hxj, heq.symm⟩

theorem sigLookup_mem_entry (s : Sig) (k : Nat) (hk : k ∈ sigKeys s) :
    ∃ e ∈ s, e.1 = k ∧ sigLookup s k = e.2 := by
  have hsome : (s.find? (fun e => e.1 == k)).isSome := by
    rw [List.find?_isSome]
    rcases List.mem_map.mp hk with ⟨e, he, hfst⟩
    exact ⟨e, he, by simp [hfst]⟩
  rcases hf : s.find? (fun e => e.1 == k) with _ | e
  · rw [hf] at hsome
    cases hsome
  · have hmem := List.mem_of_find?_eq_some hf
    have hpred := List.find?_some hf
    refine ⟨e, hmem, by simpa using hpred, ?_⟩
    unfold sigLookup
    rw [hf]
    rfl

/-! ### Claim theorems about the Delay Finder -/

/-- C3: when find_delay returns a delta, that delta is the key of the
entry that sorts last under the stable ascending-by-count sort of the
histogram, and its vote count is greater than or equal to the vote
count of every histogram entry. -/
theorem find_delay_returns_max (orig sample : Sig) (mn mx : Option Rat) (d : Int)
    (h : find_delay orig sample mn mx = .ok d) :
    ∃ c, (sortByCount (histogram orig sample mn mx)).getLast? = some (d, c) ∧
      ∀ e ∈ histogram orig sample mn mx, e.2 ≤ c := by
  unfold find_delay at h
  split at h
  · cases h
  · rcases hl : (sortByCount (histogram orig sample mn mx)).getLast? with _ | e
    · rw [hl] at h
      cases h
    · rw [hl] at h
      injection h with hde
      subst hde
      refine ⟨e.2, ?_, ?_⟩
      · exact rfl
      intro x hx
      have hx2 : x ∈ sortByCount (histogram orig sample mn mx) :=
        (List.perm_insertionSort countLE _).symm.subset hx
      exact sorted_getLast_max _ e (List.sorted_insertionSort countLE _) hl x hx2

theorem find_delay_returns_max_witness :
    ∃ c, (sortByCount (histogram [(0, [0, 1])] [(0, [2])] none none)).getLast? = some (1, c) ∧
      ∀ e ∈ histogram [(0, [0, 1])] [(0, [2])] none none, e.2 ≤ c :=
  find_delay_returns_max [(0, [0, 1])] [(0, [2])] none none 1 (by with_unfolding_all decide)

/-- C8 counterexample: with bounds that exclude every delta, the
zero-increment variant still selects an (out-of-range) delta while the
skipping variant is left with an empty histogram and fails, so the two
variants are not equivalent for every bound setting. -/
theorem histogram_variants_differ :
    find_delay [(0, [0])] [(0, [5])] (some 10) none = .ok 5 ∧
    find_delay_skip [(0, [0])] [(0, [5])] (some 10) none = .indexError := by
  with_unfolding_all decide

/-- C8 amended: whenever at least one delta satisfies the bounds, the
zero-increment histogram variant and the skipping variant return the
same result. -/
theorem find_delay_skip_agrees (orig sample : Sig) (mn mx : Option Rat)
    (h : ∃ d ∈ occurrences orig sample, inRange mn mx d = true) :
    find_delay_skip orig sample mn mx = find_delay orig sample mn mx := by
  rcases h with ⟨d, hd, hr⟩
  unfold find_delay find_delay_skip sortByCount
  rw [histogramSkip_eq]
  have hlast : (List.insertionSort countLE
        ((histogram orig sample mn mx).filter (fun e => inRange mn mx e.1))).getLast? =
      (List.insertionSort countLE (histogram orig sample mn mx)).getLast? := by
    apply getLast?_sort_filter
    · exact fun e he hpe => histogram_range_zero orig sample mn mx e he hpe
    · have hkey : d ∈ (histogram orig sample mn mx).map Prod.fst :=
        histogram_mem_key orig sample mn mx d hd
      rcases List.mem_map.mp hkey with ⟨e, he, hfst⟩
      refine ⟨e, he, ?_, ?_⟩
      · show inRange mn mx e.1 = true
        rw [hfst]
        exact hr
      · exact histogram_range_pos orig sample mn mx e he (by rw [hfst]; exact hr)
  rw [hlast]

theorem find_delay_skip_agrees_witness :
    find_delay_skip [(0, [0])] [(0, [5])] none none =
      find_delay [(0, [0])] [(0, [5])] none none :=
  find_delay_skip_agrees [(0, [0])] [(0, [5])] none none (by with_unfolding_all decide)

/-- C10: for signatures whose key lists are all non-empty and which
share at least one key, find_delay always returns a delta; that delta
is a difference of a sample time and a reference time, and when the
bounds exclude every difference the selected delta has zero votes and
lies outside the bounds. -/
theorem find_delay_total (orig sample : Sig) (mn mx : Option Rat)
    (hne : sharedKeys orig sample ≠ [])
    (ho : ∀ e ∈ orig, e.2 ≠ []) (hs : ∀ e ∈ sample, e.2 ≠ []) :
    ∃ d, find_delay orig sample mn mx = .ok d ∧
      (∃ k ∈ sharedKeys orig sample, ∃ xi ∈ sigLookup sample k, ∃ xj ∈ sigLookup orig k,
        d = (xi : Int) - (xj : Int)) ∧
      ((∀ x ∈ occurrences orig sample, inRange mn mx x = false) →
        (d, 0) ∈ histogram orig sample mn mx ∧ inRange mn mx d = false) := by
  rcases List.exists_mem_of_ne_nil _ hne with ⟨k, hk⟩
  have hk2 := List.mem_filter.mp hk
  have hksample : k ∈ sigKeys sample := hk2.1
  have hkorig : k ∈ sigKeys orig := by
    have := hk2.2
    simpa [List.elem_iff] using this
  rcases sigLookup_mem_entry sample k hksample with ⟨es, hes, _, heslook⟩
  rcases sigLookup_mem_entry orig k hkorig with ⟨eo, heo, _, heolook⟩
  have hsnn : sigLookup sample k ≠ [] := by rw [heslook]; exact hs es hes
  have honn : sigLookup orig k ≠ [] := by rw [heolook]; exact ho eo heo
  rcases List.exists_mem_of_ne_nil _ hsnn with ⟨xi, hxi⟩
  rcases List.exists_mem_of_ne_nil _ honn with ⟨xj, hxj⟩
  have hocc : ((xi : Int) - (xj : Int)) ∈ occurrences orig sample :=
    mem_occurrences orig sample k xi xj hk hxi hxj
  have honenil : occurrences orig sample ≠ [] := by
    intro hnil
    rw [hnil] at hocc
    cases hocc
  have hhist := histogram_ne_nil orig sample mn mx honenil
  rcases hlast : (sortByCount (histogram orig sample mn mx)).getLast? with _ | e
  · have : sortByCount (histogram orig sample mn mx) = [] :=
      List.getLast?_eq_none_iff.mp hlast
    exact absurd (insertionSort_eq_nil_iff.mp this) hhist
  · have hemem : e ∈ histogram orig sample mn mx :=
      (List.perm_insertionSort countLE _).subset (List.mem_of_mem_getLast? hlast)
    refine ⟨e.1, ?_, ?_, ?_⟩
    · unfold find_delay
      rw [if_neg hne, hlast]
    · exact occurrences_mem_decomp orig sample e.1
        (histogram_keys_mem orig sample mn mx e hemem)
    · intro hallout
      have he0 : e.2 = 0 := histogram_all_zero orig sample mn mx hallout e hemem
      refine ⟨?_, hallout e.1 (histogram_keys_mem orig sample mn mx e hemem)⟩
      rw [← he0]
      exact hemem

theorem find_delay_total_witness :
    ∃ d, find_delay [(0, [0])] [(0, [5])] (some 10) none = .ok d ∧
      (∃ k ∈ sharedKeys [(0, [0])] [(0, [5])],
        ∃ xi ∈ sigLookup [(0, [5])] k, ∃ xj ∈ sigLookup [(0, [0])] k,
          d = (xi : Int) - (xj : Int)) ∧
      ((∀ x ∈ occurrences [(0, [0])] [(0, [5])], inRange (some 10) none x = false) →
        (d, 0) ∈ histogram [(0, [0])] [(0, [5])] (some 10) none ∧
          inRange (some 10) none d = false) :=
  find_delay_total [(0, [0])] [(0, [5])] (some 10) none (by with_unfolding_all decide)
    (by with_unfolding_all decide) (by with_unfolding_all decide)

/-! ### Claim theorems about the Signature Extractor -/

theorem tmin_mem (a b : Triple) : tmin a b = a ∨ tmin a b = b := by
  unfold tmin
  split
  · exact Or.inr rfl
  · exact Or.inl rfl

theorem foldl_tmin_mem : ∀ (t : List Triple) (a : Triple), t.foldl tmin a ∈ a :: t := by
  intro t
  induction t with
  | nil => intro a; simp
  | cons b t2 ih =>
    intro a
    rw [List.foldl_cons]
    rcases tmin_mem a b with he | he <;> rw [he]
    · rcases List.mem_cons.mp (ih a) with h2 | h2
      · rw [h2]
        exact List.mem_cons_self a _
      · exact List.mem_cons_of_mem a (List.mem_cons_of_mem b h2)
    · rcases List.mem_cons.mp (ih b) with h2 | h2
      · rw [h2]
        exact List.mem_cons_of_mem a (List.mem_cons_self b _)
      · exact List.mem_cons_of_mem a (List.mem_cons_of_mem b h2)

theorem minTriple_mem : ∀ (l : List Triple), l ≠ [] → minTriple l ∈ l := by
  intro l hl
  rcases l with _ | ⟨a, t⟩
  · exact absurd rfl hl
  · exact foldl_tmin_mem t a

theorem insertTriple_length (K : Nat) (l : List Triple) (t : Triple)
    (hl : l.length ≤ K) : (insertTriple K l t).length ≤ K := by
  unfold insertTriple
  split
  · rename_i hK
    have hmem : minTriple (l ++ [t]) ∈ l ++ [t] := minTriple_mem _ (by simp)
    rw [List.length_erase_of_mem hmem]
    simp only [List.length_append, List.length_singleton] at hK ⊢
    omega
  · rename_i hK
    simp only [List.length_append, List.length_singleton] at hK ⊢
    omega

theorem updateBox_inv (P : List Triple → Prop) (bs : Boxes) (c : Nat × Nat)
    (f : List Triple → List Triple) (hb : ∀ x, P (bs x)) (hf : ∀ l, P l → P (f l)) :
    ∀ x, P (updateBox bs c f x) := by
  intro x
  unfold updateBox
  split
  · exact hf _ (hb x)
  · exact hb x

theorem window_fold_cap (spectrum : List Rat → List Rat) (boxH boxW K : Nat) :
    ∀ (ws : List (Nat × List Rat)) (bs0 : Boxes), (∀ c, (bs0 c).length ≤ K) →
      ∀ cell,
        ((ws.foldl (fun bs xw => processWindow boxH boxW K bs xw.1 (spectrum xw.2)) bs0)
          cell).length ≤ K := by
  intro ws bs0 h0
  have hstep : ∀ (bs : Boxes) (xw : Nat × List Rat),
      (∀ cell, (bs cell).length ≤ K) →
      ∀ cell, ((processWindow boxH boxW K bs xw.1 (spectrum xw.2)) cell).length ≤ K := by
    intro bs xw hb
    unfold processWindow
    refine foldl_preserves (fun b => ∀ c, (b c).length ≤ K) _ _ bs hb ?_
    intro b y hbb
    apply updateBox_inv (fun l => l.length ≤ K)
    · exact hbb
    · intro l hl
      exact insertTriple_length K l _ hl
  refine foldl_preserves (fun b : Boxes => ∀ c, (b c).length ≤ K) _ _ _ h0 ?_
  exact fun b a hb => hstep b a hb

theorem mkBoxes_cap (spectrum : List Rat → List Rat) (data : List Rat)
    (fft overlap boxH boxW K : Nat) :
    ∀ cell, ((mkBoxes spectrum data fft overlap boxH boxW K) cell).length ≤ K := by
  unfold mkBoxes
  exact window_fold_cap spectrum boxH boxW K (fullWindows data fft overlap)
    (fun _ => []) (fun c => by simp)

/-! ### Size accounting for the flattening loop

The Python freqs_dict is keyed by frequency with unique keys; the
invariant that the association list built by sigAppend has duplicate-free
keys is maintained through the fold, and each sigAppend adds exactly one
entry to the signature. -/

/-- Total number of (frequency, window) entries held by a signature. -/
def sigSize (s : Sig) : Nat := (s.map (fun e => e.2.length)).sum

theorem sigSize_cons (e : Nat × List Nat) (s : Sig) :
    sigSize (e :: s) = e.2.length + sigSize s := by
  simp [sigSize]

theorem sigSize_append (s1 s2 : Sig) : sigSize (s1 ++ s2) = sigSize s1 + sigSize s2 := by
  simp [sigSize]

theorem mem_sigKeys_iff_find? (s : Sig) (y : Nat) :
    (s.find? (fun e => e.1 == y)).isSome ↔ y ∈ s.map Prod.fst := by
  rw [List.find?_isSome]
  constructor
  · rintro ⟨e, he, hd⟩
    exact List.mem_map.mpr ⟨e, he, by simpa using hd⟩
  · intro hd
    rcases List.mem_map.mp hd with ⟨e, he, hd2⟩
    exact ⟨e, he, by simp [hd2]⟩

theorem sigAppend_map_fst (s : Sig) (y x : Nat) :
    (sigAppend s y x).map Prod.fst =
      if (s.find? (fun e => e.1 == y)).isSome then s.map Prod.fst
      else s.map Prod.fst ++ [y] := by
  unfold sigAppend
  split
  · rw [List.map_map]
    refine List.map_congr_left ?_
    intro e _
    show (if (e.1 == y) = true then (e.1, e.2 ++ [x]) else e).1 = e.1
    split <;> rfl
  · simp

theorem sigAppend_nodup (s : Sig) (y x : Nat) (hn : (s.map Prod.fst).Nodup) :
    ((sigAppend s y x).map Prod.fst).Nodup := by
  rw [sigAppend_map_fst]
  split
  · exact hn
  · rename_i hs
    have hy : y ∉ s.map Prod.fst := fun hd => hs ((mem_sigKeys_iff_find? s y).mpr hd)
    simp [List.nodup_append, hn, hy]

theorem sigSize_update (y x : Nat) :
    ∀ (s : Sig), (s.map Prod.fst).Nodup →
      (s.find? (fun e => e.1 == y)).isSome →
      sigSize (s.map (fun e => if e.1 == y then (e.1, e.2 ++ [x]) else e)) =
        sigSize s + 1 := by
  intro s
  induction s with
  | nil => intro _ hs; cases hs
  | cons e t ih =>
    intro hn hs
    by_cases hc : (e.1 == y) = true
    · have hey : e.1 = y := by simpa using hc
      have hyt : y ∉ t.map Prod.fst := by
        rw [List.map_cons] at hn
        rw [← hey]
        exact (List.nodup_cons.mp hn).1
      have htid : t.map (fun e => if e.1 == y then (e.1, e.2 ++ [x]) else e) = t := by
        conv_rhs => rw [← List.map_id t]
        refine List.map_congr_left ?_
        intro e2 he2
        have hne : ¬ (e2.1 == y) = true := by
          intro hh
          exact hyt (List.mem_map.mpr ⟨e2, he2, by simpa using hh⟩)
        show (if (e2.1 == y) = true then (e2.1, e2.2 ++ [x]) else e2) = id e2
        rw [if_neg hne]
        rfl
      have hhead : (if (e.1 == y) = true then (e.1, e.2 ++ [x]) else e) =
          (e.1, e.2 ++ [x]) := if_pos hc
      rw [List.map_cons, htid, hhead, sigSize_cons, sigSize_cons]
      simp only [List.length_append, List.length_singleton]
      omega
    · have hhead : (if (e.1 == y) = true then (e.1, e.2 ++ [x]) else e) = e := if_neg hc
      have hn2 : (t.map Prod.fst).Nodup := by
        rw [List.map_cons] at hn
        exact (List.nodup_cons.mp hn).2
      have hs2 : (t.find? (fun e => e.1 == y)).isSome := by
        rw [find?_cons_neg (fun e2 : Nat × List Nat => e2.1 == y) e t hc] at hs
        exact hs
      rw [List.map_cons, hhead, sigSize_cons, sigSize_cons, ih hn2 hs2]
      omega

theorem sigAppend_size (s : Sig) (y x : Nat) (hn : (s.map Prod.fst).Nodup) :
    sigSize (sigAppend s y x) = sigSize s + 1 := by
  unfold sigAppend
  split
  · rename_i hs
    exact sigSize_update y x s hn hs
  · rw [sigSize_append, sigSize_cons]
    simp [sigSize]

theorem flatten_cell_fold (l : List Triple) :
    ∀ (s : Sig), (s.map Prod.fst).Nodup →
      ((l.foldl (fun s2 t => sigAppend s2 t.2.2 t.2.1) s).map Prod.fst).Nodup ∧
      sigSize (l.foldl (fun s2 t => sigAppend s2 t.2.2 t.2.1) s) = sigSize s + l.length := by
  induction l with
  | nil => intro s hn; exact ⟨hn, by simp⟩
  | cons t l2 ih =>
    intro s hn
    rw [List.foldl_cons]
    rcases ih (sigAppend s t.2.2 t.2.1) (sigAppend_nodup s t.2.2 t.2.1 hn) with ⟨h1, h2⟩
    refine ⟨h1, ?_⟩
    rw [h2, sigAppend_size s t.2.2 t.2.1 hn]
    simp only [List.length_cons]
    omega

theorem flattenBoxes_fold_size (bs : Boxes) :
    ∀ (cells : List (Nat × Nat)) (s : Sig), (s.map Prod.fst).Nodup →
      ((cells.foldl (fun s c => (bs c).foldl (fun s2 t => sigAppend s2 t.2.2 t.2.1) s)
          s).map Prod.fst).Nodup ∧
      sigSize (cells.foldl (fun s c => (bs c).foldl (fun s2 t => sigAppend s2 t.2.2 t.2.1) s)
          s) =
        sigSize s + (cells.map (fun c => (bs c).length)).sum := by
  intro cells
  induction cells with
  | nil => intro s hn; exact ⟨hn, by simp⟩
  | cons c cells2 ih =>
    intro s hn
    rw [List.foldl_cons]
    rcases flatten_cell_fold (bs c) s hn with ⟨h1, h2⟩
    rcases ih _ h1 with ⟨h3, h4⟩
    refine ⟨h3, ?_⟩
    rw [h4, h2, List.map_cons, List.sum_cons]
    omega

theorem flattenBoxes_size (bs : Boxes) (cells : List (Nat × Nat)) :
    sigSize (flattenBoxes bs cells) = (cells.map (fun c => (bs c).length)).sum := by
  unfold flattenBoxes
  have h := (flattenBoxes_fold_size bs cells [] (by simp)).2
  rw [h]
  simp [sigSize]

/-- C6: with positive box dimensions and K = samples_per_box at least 1,
the per-cell cap holds throughout signature extraction and survives into
the flattened signature: (i) every single boxes[cell].append followed by
the conditional remove(min(...)) eviction (insertTriple) keeps a
compliant cell at no more than K triples; (ii) from any state in which
every cell holds at most K triples, processing any sequence of windows
keeps every cell at no more than K triples - so the bound holds at every
intermediate state of the extraction; (iii) in particular every cell of
the final boxes map holds at most K triples; (iv) the flattening loop
appends exactly one signature entry per retained triple, so for any cell
enumeration the flattened signature holds exactly the sum of the
per-cell triple counts; (v) hence the entries originating from any one
cell number at most K. -/
theorem summary_cell_cap (spectrum : List Rat → List Rat) (data : List Rat)
    (fft overlap boxH boxW K : Nat) (hH : 0 < boxH) (hW : 0 < boxW) (hK : 1 ≤ K) :
    (∀ (l : List Triple) (t : Triple), l.length ≤ K → (insertTriple K l t).length ≤ K) ∧
    (∀ (ws : List (Nat × List Rat)) (bs0 : Boxes), (∀ c, (bs0 c).length ≤ K) →
      ∀ cell,
        ((ws.foldl (fun bs xw => processWindow boxH boxW K bs xw.1 (spectrum xw.2)) bs0)
          cell).length ≤ K) ∧
    (∀ cell, ((mkBoxes spectrum data fft overlap boxH boxW K) cell).length ≤ K) ∧
    (∀ cells : List (Nat × Nat),
      sigSize (flattenBoxes (mkBoxes spectrum data fft overlap boxH boxW K) cells) =
        (cells.map
          (fun c => ((mkBoxes spectrum data fft overlap boxH boxW K) c).length)).sum) ∧
    (∀ cell,
      sigSize (flattenBoxes (mkBoxes spectrum data fft overlap boxH boxW K) [cell]) ≤ K) := by
  refine ⟨fun l t => insertTriple_length K l t, window_fold_cap spectrum boxH boxW K,
    mkBoxes_cap spectrum data fft overlap boxH boxW K,
    fun cells => flattenBoxes_size _ cells, ?_⟩
  intro cell
  rw [flattenBoxes_size]
  simp only [List.map_cons, List.map_nil, List.sum_cons, List.sum_nil, Nat.add_zero]
  exact mkBoxes_cap spectrum data fft overlap boxH boxW K cell

theorem summary_cell_cap_witness :
    0 < 1 ∧
    ((mkBoxes id [1, 2, 3, 4] 2 0 1 1 1) (0, 0)).length ≤ 1 ∧
    sigSize (flattenBoxes (mkBoxes id [1, 2, 3, 4] 2 0 1 1 1) [(0, 0), (1, 0)]) =
      (([(0, 0), (1, 0)] : List (Nat × Nat)).map
        (fun c => ((mkBoxes id [1, 2, 3, 4] 2 0 1 1 1) c).length)).sum ∧
    sigSize (flattenBoxes (mkBoxes id [1, 2, 3, 4] 2 0 1 1 1) [(0, 0)]) ≤ 1 :=
  ⟨Nat.one_pos,
    (summary_cell_cap id [1, 2, 3, 4] 2 0 1 1 1 Nat.one_pos Nat.one_pos
      (le_refl 1)).2.2.1 (0, 0),
    (summary_cell_cap id [1, 2, 3, 4] 2 0 1 1 1 Nat.one_pos Nat.one_pos
      (le_refl 1)).2.2.2.1 [(0, 0), (1, 0)],
    (summary_cell_cap id [1, 2, 3, 4] 2 0 1 1 1 Nat.one_pos Nat.one_pos
      (le_refl 1)).2.2.2.2 (0, 0)⟩

/-- C7 counterexample: with data [1,2,3,4], fft_bin_size 2, overlap 1,
the window enumeration starts at j = -1, but the slice
data[max(0,j) : max(0,j) + fft_bin_size] clamps both endpoints, so the
leading window is the full-length data[0:2] and is kept (window index 0
below), not shrunk to length 1 and discarded as the claim asserts. -/
theorem fullWindows_leading_kept :
    fullWindows [1, 2, 3, 4] 2 1 =
      [(0, [1, 2]), (1, [1, 2]), (2, [2, 3]), (3, [3, 4])] := by
  with_unfolding_all decide

theorem pyRangeLen_pos (a b s : Int) (hs : 0 < s) (hab : a < b) :
    0 < pyRangeLen a b s := by
  unfold pyRangeLen
  rw [if_pos ⟨hs, hab⟩]
  have h1 : (1 : Int) ≤ (b - a + s - 1) / s := by
    rw [Int.le_ediv_iff_mul_le hs]
    omega
  omega

/-- C7 amended: every window kept by the extractor has length exactly
fft_bin_size and is a slice data[lo : lo + fft_bin_size] lying fully
inside the buffer (in particular the trailing partial window is always
discarded); the leading window is clamped to start at index 0 with full
length fft_bin_size - not shrunk - so when overlap > 0 and the buffer
holds at least fft_bin_size samples it is retained as data[0:fft_bin_size]. -/
theorem fullWindows_spec (data : List Rat) (fft overlap : Nat) (hov : overlap < fft) :
    (∀ xw ∈ fullWindows data fft overlap,
      (xw.2).length = fft ∧ ∃ lo, xw.2 = (data.drop lo).take fft ∧ lo + fft ≤ data.length) ∧
    (0 < overlap → fft ≤ data.length →
      (0, data.take fft) ∈ fullWindows data fft overlap) := by
  constructor
  · intro xw hxw
    unfold fullWindows at hxw
    rcases List.mem_filterMap.mp hxw with ⟨xj, _, hf⟩
    split at hf
    · rename_i hlen
      injection hf with h1
      subst h1
      refine ⟨hlen, xj.2.toNat, rfl, ?_⟩
      rw [List.length_take, List.length_drop] at hlen
      omega
    · cases hf
  · intro hovpos hlen
    unfold fullWindows
    apply List.mem_filterMap.mpr
    refine ⟨(0, -(overlap : Int)), ?_, ?_⟩
    · unfold windowStarts
      apply List.mem_map.mpr
      refine ⟨0, ?_, by simp⟩
      apply List.mem_range.mpr
      apply pyRangeLen_pos
      · omega
      · have : 0 < data.length := by omega
        omega
    · have htn : (-(overlap : Int)).toNat = 0 := by
        simp
      rw [htn, List.drop_zero]
      have hl : (data.take fft).length = fft := by
        rw [List.length_take]
        omega
      rw [if_pos hl]

theorem fullWindows_spec_witness :
    1 < 2 ∧ ((0 : Nat), [(1 : Rat), 2]) ∈ fullWindows [1, 2, 3, 4] 2 1 :=
  ⟨by decide,
    (fullWindows_spec [1, 2, 3, 4] 2 1 (by decide)).2 (by decide) (by decide)⟩

/-! ### DelayMap lemmas -/

theorem hasPair_iff_mem (m : DelayMap) (k : Nat × Nat) :
    hasPair m k = true ↔ k ∈ m.map Prod.fst := by
  unfold hasPair
  rw [List.find?_isSome]
  constructor
  · rintro ⟨e, he, hd⟩
    exact List.mem_map.mpr ⟨e, he, by simpa using hd⟩
  · intro hd
    rcases List.mem_map.mp hd with ⟨e, he, hd2⟩
    exact ⟨e, he, by simp [hd2]⟩

theorem setPair_map_fst (m : DelayMap) (k : Nat × Nat) (v : Rat) :
    (setPair m k v).map Prod.fst =
      if (m.find? (fun e => e.1 == k)).isSome then m.map Prod.fst
      else m.map Prod.fst ++ [k] := by
  unfold setPair
  split
  · rw [List.map_map]
    refine List.map_congr_left ?_
    intro e _
    show (if (e.1 == k) = true then (k, v) else e).1 = e.1
    split
    · rename_i hc
      exact ((by simpa using hc : e.1 = k)).symm
    · rfl
  · simp

theorem find?_replace_self (m : DelayMap) (k : Nat × Nat) (v : Rat)
    (hs : (m.find? (fun e => e.1 == k)).isSome) :
    (m.map (fun e => if e.1 == k then (k, v) else e)).find? (fun e => e.1 == k) =
      some (k, v) := by
  induction m with
  | nil => cases hs
  | cons e t ih =>
    by_cases hc : (e.1 == k) = true
    · have h1 : (if (e.1 == k) = true then (k, v) else e) = (k, v) := if_pos hc
      rw [List.map_cons, h1, find?_cons_pos (fun e => e.1 == k) (k, v) _ (by simp)]
    · have h1 : (if (e.1 == k) = true then (k, v) else e) = e := if_neg hc
      rw [List.map_cons, h1, find?_cons_neg (fun e => e.1 == k) e _ hc]
      apply ih
      rw [find?_cons_neg (fun e => e.1 == k) e _ hc] at hs
      exact hs

theorem find?_replace_other (m : DelayMap) (k k2 : Nat × Nat) (v : Rat) (hne : k2 ≠ k) :
    (m.map (fun e => if e.1 == k then (k, v) else e)).find? (fun e => e.1 == k2) =
      m.find? (fun e => e.1 == k2) := by
  induction m with
  | nil => rfl
  | cons e t ih =>
    by_cases hc : (e.1 == k) = true
    · have hek : e.1 = k := by simpa using hc
      have h1 : (if (e.1 == k) = true then (k, v) else e) = (k, v) := if_pos hc
      have hp1 : ¬ (((k, v) : (Nat × Nat) × Rat).1 == k2) = true := by
        simpa using fun h : k = k2 => hne h.symm
      have hp2 : ¬ (e.1 == k2) = true := by
        rw [hek]
        simpa using fun h : k = k2 => hne h.symm
      rw [List.map_cons, h1, find?_cons_neg (fun e => e.1 == k2) (k, v) _ hp1,
        find?_cons_neg (fun e => e.1 == k2) e _ hp2]
      exact ih
    · have h1 : (if (e.1 == k) = true then (k, v) else e) = e := if_neg hc
      rw [List.map_cons, h1]
      by_cases hc2 : (e.1 == k2) = true
      · rw [find?_cons_pos (fun e => e.1 == k2) e _ hc2,
          find?_cons_pos (fun e => e.1 == k2) e _ hc2]
      · rw [find?_cons_neg (fun e => e.1 == k2) e _ hc2,
          find?_cons_neg (fun e => e.1 == k2) e _ hc2]
        exact ih

theorem lookupPair_setPair_self (m : DelayMap) (k : Nat × Nat) (v : Rat) :
    lookupPair (setPair m k v) k = some v := by
  unfold lookupPair setPair
  split
  · rename_i hs
    rw [find?_replace_self m k v hs]
    rfl
  · rename_i hs
    rw [List.find?_append,
      List.find?_eq_none.mpr (fun e he hp => hs (List.find?_isSome.mpr ⟨e, he, hp⟩))]
    simp

theorem lookupPair_setPair_other (m : DelayMap) (k k2 : Nat × Nat) (v : Rat)
    (hne : k2 ≠ k) : lookupPair (setPair m k v) k2 = lookupPair m k2 := by
  unfold lookupPair setPair
  split
  · rw [find?_replace_other m k k2 v hne]
  · have hp1 : ¬ (((k, v) : (Nat × Nat) × Rat).1 == k2) = true := by
      simpa using fun h : k = k2 => hne h.symm
    rw [List.find?_append, find?_cons_neg (fun e => e.1 == k2) (k, v) _ hp1]
    simp

/-! ### Base-relative resolution: explicit form of the basePass fold -/

/-- The value the base-relative loop assigns to result2[(0, i+1)]; the
wildcard match arm is only reachable when the step failed, in which case
the surrounding fold returns none and the value is never read. -/
def baseValD (sigs : List Sig) (samps : Rat) (r1 : DelayMap) (i : Nat) : Rat :=
  if hasPair r1 (0, i + 1) then (lookupPair r1 (0, i + 1)).getD 0
  else if hasPair r1 (i + 1, 0) then -((lookupPair r1 (i + 1, 0)).getD 0)
  else
    match find_delay (sigs.getD 0 []) (sigs.getD (i + 1) []) none none with
    | .ok d => -(d : Rat) / samps
    | _ => 0

theorem explicit_map_fst (sigs : List Sig) (samps : Rat) (r1 : DelayMap) (k : Nat) :
    ((((0, 0), (0 : Rat)) ::
        (List.range k).map (fun i => ((0, i + 1), baseValD sigs samps r1 i))).map
      Prod.fst) = ((0, 0) : Nat × Nat) :: (List.range k).map (fun i => (0, i + 1)) := by
  simp [List.map_map]

theorem explicit_not_mem (k : Nat) :
    (((0 : Nat), k + 1) : Nat × Nat) ∉
      (((0, 0) : Nat × Nat) :: (List.range k).map (fun i => ((0 : Nat), i + 1))) := by
  intro h
  rcases List.mem_cons.mp h with h | h
  · have : k + 1 = 0 := congrArg Prod.snd h
    omega
  · rcases List.mem_map.mp h with ⟨i, hi, heq⟩
    have h2 : i + 1 = k + 1 := congrArg Prod.snd heq
    have hik : i < k := List.mem_range.mp hi
    omega

theorem explicit_hasPair_false (sigs : List Sig) (samps : Rat) (r1 : DelayMap) (k : Nat) :
    ¬ ((((0, 0), (0 : Rat)) ::
        (List.range k).map (fun i => ((0, i + 1), baseValD sigs samps r1 i))).find?
          (fun e => e.1 == (((0 : Nat), k + 1) : Nat × Nat))).isSome = true := by
  intro hh
  apply explicit_not_mem k
  have hmem := (hasPair_iff_mem _ ((0, k + 1) : Nat × Nat)).mp hh
  rw [explicit_map_fst] at hmem
  exact hmem

theorem basePass_fold_eq (sigs : List Sig) (samps : Rat) (r1 : DelayMap) :
    ∀ (k : Nat) (r2 : DelayMap),
      (List.range k).foldlM (baseStep sigs samps r1) [((0, 0), (0 : Rat))] = some r2 →
      r2 = ((0, 0), (0 : Rat)) ::
          (List.range k).map (fun i => ((0, i + 1), baseValD sigs samps r1 i)) ∧
      ∀ i, i < k → hasPair r1 (0, i + 1) = false → hasPair r1 (i + 1, 0) = false →
        ∃ d, find_delay (sigs.getD 0 []) (sigs.getD (i + 1) []) none none = .ok d := by
  intro k
  induction k with
  | zero =>
    intro r2 h
    simp only [List.range_zero, List.foldlM_nil] at h
    refine ⟨?_, fun i hi => absurd hi (by omega)⟩
    simp only [List.range_zero, List.map_nil]
    exact (Option.some.inj h).symm
  | succ k ih =>
    intro r2 h
    rw [List.range_succ, List.foldlM_append] at h
    rcases hmid : (List.range k).foldlM (baseStep sigs samps r1) [((0, 0), (0 : Rat))]
      with _ | mid
    · rw [hmid] at h
      simp at h
    · rw [hmid] at h
      have h2 : baseStep sigs samps r1 mid k = some r2 := by
        rcases hstep : baseStep sigs samps r1 mid k with _ | r3
        · simp [hstep] at h
        · simp [hstep] at h
          rw [h]
      rcases ih mid hmid with ⟨hmideq, hcalls⟩
      subst hmideq
      have happ : ∀ v : Rat,
          setPair (((0, 0), (0 : Rat)) ::
              (List.range k).map (fun i => ((0, i + 1), baseValD sigs samps r1 i)))
            (0, k + 1) v =
          (((0, 0), (0 : Rat)) ::
              (List.range k).map (fun i => ((0, i + 1), baseValD sigs samps r1 i))) ++
            [((0, k + 1), v)] := by
        intro v
        unfold setPair
        rw [if_neg (explicit_hasPair_false sigs samps r1 k)]
      have hexp : ∀ v : Rat,
          (((0, 0), (0 : Rat)) ::
              (List.range k).map (fun i => ((0, i + 1), baseValD sigs samps r1 i))) ++
            [((0, k + 1), v)] =
          ((0, 0), (0 : Rat)) ::
            ((List.range k).map (fun i => ((0, i + 1), baseValD sigs samps r1 i)) ++
              [((0, k + 1), v)]) := by
        intro v
        simp
      unfold baseStep at h2
      by_cases hb1 : hasPair r1 (0, k + 1) = true
      · rw [if_pos hb1] at h2
        have hval : baseValD sigs samps r1 k = (lookupPair r1 (0, k + 1)).getD 0 := by
          unfold baseValD
          rw [if_pos hb1]
        refine ⟨?_, ?_⟩
        · rw [← Option.some.inj h2, happ, hexp, List.range_succ, List.map_append]
          simp [hval]
        · intro i hi hf1 hf2
          rcases Nat.lt_succ_iff_lt_or_eq.mp hi with hik | rfl
          · exact hcalls i hik hf1 hf2
          · rw [hb1] at hf1
            cases hf1
      · rw [if_neg hb1] at h2
        have hb1f : hasPair r1 (0, k + 1) = false := by
          rcases hx : hasPair r1 (0, k + 1) with _ | _
          · rfl
          · exact absurd hx hb1
        by_cases hb2 : hasPair r1 (k + 1, 0) = true
        · rw [if_pos hb2] at h2
          have hval : baseValD sigs samps r1 k = -((lookupPair r1 (k + 1, 0)).getD 0) := by
            unfold baseValD
            rw [if_neg hb1, if_pos hb2]
          refine ⟨?_, ?_⟩
          · rw [← Option.some.inj h2, happ, hexp, List.range_succ, List.map_append]
            simp [hval]
          · intro i hi hf1 hf2
            rcases Nat.lt_succ_iff_lt_or_eq.mp hi with hik | rfl
            · exact hcalls i hik hf1 hf2
            · rw [hb2] at hf2
              cases hf2
        · rw [if_neg hb2] at h2
          have hb2f : hasPair r1 (k + 1, 0) = false := by
            rcases hx : hasPair r1 (k + 1, 0) with _ | _
            · rfl
            · exact absurd hx hb2
          rcases hfd : find_delay (sigs.getD 0 []) (sigs.getD (k + 1) []) none none
            with _ | _ | d
          · rw [hfd] at h2
            cases h2
          · rw [hfd] at h2
            cases h2
          · rw [hfd] at h2
            have hval : baseValD sigs samps r1 k = -(d : Rat) / samps := by
              unfold baseValD
              rw [if_neg hb1, if_neg hb2, hfd]
            refine ⟨?_, ?_⟩
            · rw [← Option.some.inj h2, happ, hexp, List.range_succ, List.map_append]
              simp [hval]
            · intro i hi hf1 hf2
              rcases Nat.lt_succ_iff_lt_or_eq.mp hi with hik | rfl
              · exact hcalls i hik hf1 hf2
              · exact ⟨d, hfd⟩

theorem find?_map_range (w : Nat → Rat) :
    ∀ (k i : Nat), i < k →
      ((List.range k).map (fun j => ((((0 : Nat), j + 1) : Nat × Nat), w j))).find?
          (fun e => e.1 == (((0 : Nat), i + 1) : Nat × Nat)) = some ((0, i + 1), w i) := by
  intro k
  induction k with
  | zero => intro i hi; exact absurd hi (by omega)
  | succ k ih =>
    intro i hi
    rw [List.range_succ, List.map_append, List.find?_append]
    rcases Nat.lt_succ_iff_lt_or_eq.mp hi with hik | rfl
    · rw [ih i hik]
      rfl
    · rw [List.find?_eq_none.mpr ?_]
      · rw [List.map_singleton,
          find?_cons_pos (fun e : (Nat × Nat) × Rat => e.1 == (((0 : Nat), i + 1) : Nat × Nat))
            ((0, i + 1), w i) [] (by simp)]
        rfl
      · intro e he hp
        rcases List.mem_map.mp he with ⟨j, hj, rfl⟩
        have hji : j < i := List.mem_range.mp hj
        simp at hp
        omega

theorem lookupPair_explicit_zero (w : Nat → Rat) (k : Nat) :
    lookupPair ((((0, 0) : Nat × Nat), (0 : Rat)) ::
      (List.range k).map (fun j => ((0, j + 1), w j))) (0, 0) = some 0 := rfl

theorem lookupPair_explicit (w : Nat → Rat) (k i : Nat) (hi : i < k) :
    lookupPair ((((0, 0) : Nat × Nat), (0 : Rat)) ::
      (List.range k).map (fun j => ((0, j + 1), w j))) (0, i + 1) = some (w i) := by
  unfold lookupPair
  rw [find?_cons_neg (fun e : (Nat × Nat) × Rat => e.1 == (((0 : Nat), i + 1) : Nat × Nat))
      (((0, 0) : Nat × Nat), (0 : Rat)) _ (by
        intro hp
        have hp2 : ((0, 0) : Nat × Nat) = (0, i + 1) := by simpa using hp
        have h3 : (0 : Nat) = i + 1 := congrArg Prod.snd hp2
        omega),
    find?_map_range w k i hi]
  rfl

/-- C5: after the base-relative resolution loop, delay[0] is 0 and each
delay[i+1] is the constrained edge (0, i+1) when present, else the
negated reverse edge (i+1, 0), else the unconstrained direct find_delay
of file i+1 against file 0, scaled by -1/samps_per_sec. -/
theorem base_resolution (sigs : List Sig) (samps : Rat) (r1 r2 : DelayMap)
    (h : basePass sigs samps r1 = some r2) :
    lookupPair r2 (0, 0) = some 0 ∧
    ∀ i, i < sigs.length - 1 →
      (hasPair r1 (0, i + 1) = true →
        lookupPair r2 (0, i + 1) = lookupPair r1 (0, i + 1)) ∧
      (hasPair r1 (0, i + 1) = false → hasPair r1 (i + 1, 0) = true →
        lookupPair r2 (0, i + 1) = some (-((lookupPair r1 (i + 1, 0)).getD 0))) ∧
      (hasPair r1 (0, i + 1) = false → hasPair r1 (i + 1, 0) = false →
        ∃ d, find_delay (sigs.getD 0 []) (sigs.getD (i + 1) []) none none = .ok d ∧
          lookupPair r2 (0, i + 1) = some (-(d : Rat) / samps)) := by
  unfold basePass at h
  rcases basePass_fold_eq sigs samps r1 (sigs.length - 1) r2 h with ⟨heq, hcalls⟩
  subst heq
  refine ⟨lookupPair_explicit_zero _ _, ?_⟩
  intro i hi
  have hlook := lookupPair_explicit (baseValD sigs samps r1) (sigs.length - 1) i hi
  refine ⟨?_, ?_, ?_⟩
  · intro hb1
    rw [hlook]
    unfold baseValD
    rw [if_pos hb1]
    rcases hf : r1.find? (fun e => e.1 == (((0 : Nat), i + 1) : Nat × Nat)) with _ | e
    · unfold hasPair at hb1
      rw [hf] at hb1
      cases hb1
    · unfold lookupPair
      rw [hf]
      rfl
  · intro hb1 hb2
    rw [hlook]
    unfold baseValD
    rw [if_neg (by simp [hb1]), if_pos hb2]
  · intro hb1 hb2
    rcases hcalls i hi hb1 hb2 with ⟨d, hd⟩
    refine ⟨d, hd, ?_⟩
    rw [hlook]
    unfold baseValD
    rw [if_neg (by simp [hb1]), if_neg (by simp [hb2]), hd]

theorem base_resolution_witness :
    lookupPair [(((0, 0) : Nat × Nat), (0 : Rat)), ((0, 1), -3)] (0, 0) = some 0 ∧
    ∀ i, i < ([[(0, [0])], [(0, [3])]] : List Sig).length - 1 →
      (hasPair [] (0, i + 1) = true →
        lookupPair [(((0, 0) : Nat × Nat), (0 : Rat)), ((0, 1), -3)] (0, i + 1) =
          lookupPair [] (0, i + 1)) ∧
      (hasPair [] (0, i + 1) = false → hasPair [] (i + 1, 0) = true →
        lookupPair [(((0, 0) : Nat × Nat), (0 : Rat)), ((0, 1), -3)] (0, i + 1) =
          some (-((lookupPair [] (i + 1, 0)).getD 0))) ∧
      (hasPair [] (0, i + 1) = false → hasPair [] (i + 1, 0) = false →
        ∃ d, find_delay ((([[(0, [0])], [(0, [3])]] : List Sig)).getD 0 [])
            ((([[(0, [0])], [(0, [3])]] : List Sig)).getD (i + 1) []) none none = .ok d ∧
          lookupPair [(((0, 0) : Nat × Nat), (0 : Rat)), ((0, 1), -3)] (0, i + 1) =
            some (-(d : Rat) / 1)) :=
  base_resolution [[(0, [0])], [(0, [3])]] 1 [] [((0, 0), 0), ((0, 1), -3)]
    (by with_unfolding_all decide)

/-! ### Chain propagation preserves the key structure -/

theorem foldl_preserves_mem {α β : Type} (P : β → Prop) (f : β → α → β) :
    ∀ (l : List α) (b : β), P b → (∀ b2 a, a ∈ l → P b2 → P (f b2 a)) → P (l.foldl f b) := by
  intro l
  induction l with
  | nil => intro b hb _; exact hb
  | cons a t ih =>
    intro b hb hf
    exact ih (f b a) (hf b a (by simp) hb) (fun b2 x hx => hf b2 x (by simp [hx]))

theorem setPair_map_fst_of_mem (m : DelayMap) (k : Nat × Nat) (v : Rat)
    (hk : k ∈ m.map Prod.fst) : (setPair m k v).map Prod.fst = m.map Prod.fst := by
  rw [setPair_map_fst,
    if_pos (show (List.find? (fun e => e.1 == k) m).isSome = true from
      (hasPair_iff_mem m k).mpr hk)]

theorem propagateStep_map_fst (r1 : DelayMap) (ibit : Nat × Nat) (r2 : DelayMap) (i : Nat)
    (hk : (((0 : Nat), i + 1) : Nat × Nat) ∈ r2.map Prod.fst) :
    (propagateStep r1 ibit r2 i).map Prod.fst = r2.map Prod.fst := by
  unfold propagateStep
  split
  · rename_i hc
    rw [hc.2.1]
    exact setPair_map_fst_of_mem r2 _ _ hk
  · split
    · rename_i hc
      rw [hc.2.1]
      exact setPair_map_fst_of_mem r2 _ _ hk
    · rfl

theorem propagatePass_map_fst (n : Nat) (r1 r2 : DelayMap)
    (hks : ∀ i, i < n - 1 → (((0 : Nat), i + 1) : Nat × Nat) ∈ r2.map Prod.fst) :
    (propagatePass n r1 r2).map Prod.fst = r2.map Prod.fst := by
  unfold propagatePass
  apply foldl_preserves (fun m : DelayMap => m.map Prod.fst = r2.map Prod.fst)
  · rfl
  · intro m k hm
    apply foldl_preserves_mem (fun m2 : DelayMap => m2.map Prod.fst = r2.map Prod.fst)
    · exact hm
    · intro m2 i hi hm2
      rw [propagateStep_map_fst r1 k m2 i (by rw [hm2]; exact hks i (List.mem_range.mp hi))]
      exact hm2

/-! ### Minimum and maximum of the delay arrays -/

theorem foldl_pick_mem {α : Type} (f : α → α → α) (hf : ∀ a b, f a b = a ∨ f a b = b) :
    ∀ (t : List α) (a : α), t.foldl f a ∈ a :: t := by
  intro t
  induction t with
  | nil => intro a; simp
  | cons b t2 ih =>
    intro a
    rw [List.foldl_cons]
    rcases hf a b with he | he <;> rw [he]
    · rcases List.mem_cons.mp (ih a) with h2 | h2
      · rw [h2]
        exact List.mem_cons_self a _
      · exact List.mem_cons_of_mem a (List.mem_cons_of_mem b h2)
    · rcases List.mem_cons.mp (ih b) with h2 | h2
      · rw [h2]
        exact List.mem_cons_of_mem a (List.mem_cons_self b _)
      · exact List.mem_cons_of_mem a (List.mem_cons_of_mem b h2)

theorem foldl_min_le :
    ∀ (t : List Rat) (a : Rat), t.foldl min a ≤ a ∧ ∀ x ∈ t, t.foldl min a ≤ x := by
  intro t
  induction t with
  | nil => intro a; exact ⟨le_refl a, by simp⟩
  | cons b t2 ih =>
    intro a
    rw [List.foldl_cons]
    rcases ih (min a b) with ⟨h1, h2⟩
    refine ⟨le_trans h1 (min_le_left a b), ?_⟩
    intro x hx
    rcases List.mem_cons.mp hx with rfl | hx2
    · exact le_trans h1 (min_le_right a x)
    · exact h2 x hx2

theorem foldl_max_ge :
    ∀ (t : List Rat) (a : Rat), a ≤ t.foldl max a ∧ ∀ x ∈ t, x ≤ t.foldl max a := by
  intro t
  induction t with
  | nil => intro a; exact ⟨le_refl a, by simp⟩
  | cons b t2 ih =>
    intro a
    rw [List.foldl_cons]
    rcases ih (max a b) with ⟨h1, h2⟩
    refine ⟨le_trans (le_max_left a b) h1, ?_⟩
    intro x hx
    rcases List.mem_cons.mp hx with rfl | hx2
    · exact le_trans (le_max_right a x) h1
    · exact h2 x hx2

theorem npMin_mem (l : List Rat) (h : l ≠ []) : npMin l ∈ l := by
  rcases l with _ | ⟨a, t⟩
  · exact absurd rfl h
  · exact foldl_pick_mem min (fun a b => min_choice a b) t a

theorem npMin_le (l : List Rat) (x : Rat) (hx : x ∈ l) : npMin l ≤ x := by
  rcases l with _ | ⟨a, t⟩
  · cases hx
  · rcases List.mem_cons.mp hx with rfl | h
    · exact (foldl_min_le t x).1
    · exact (foldl_min_le t a).2 x h

theorem npMin_eq (l : List Rat) (m : Rat) (hm : m ∈ l) (hb : ∀ x ∈ l, m ≤ x) :
    npMin l = m :=
  le_antisymm (npMin_le l m hm) (hb _ (npMin_mem l (by rintro rfl; cases hm)))

theorem npMax_mem (l : List Rat) (h : l ≠ []) : npMax l ∈ l := by
  rcases l with _ | ⟨a, t⟩
  · exact absurd rfl h
  · exact foldl_pick_mem max (fun a b => max_choice a b) t a

theorem npMax_ge (l : List Rat) (x : Rat) (hx : x ∈ l) : x ≤ npMax l := by
  rcases l with _ | ⟨a, t⟩
  · cases hx
  · rcases List.mem_cons.mp hx with rfl | h
    · exact (foldl_max_ge t x).1
    · exact (foldl_max_ge t a).2 x h

theorem npMin_nonneg_of (l : List Rat) (h : ∀ x ∈ l, 0 ≤ x) (h0 : (0 : Rat) ∈ l) :
    npMin l = 0 :=
  npMin_eq l 0 h0 h

theorem resolvedDelays_parts (sigs : List Sig) (samps : Rat) (kdm : List KdmEntry)
    (ds : List Rat) (hds : resolvedDelays sigs samps kdm = some ds) :
    ∃ r1 r2, constraintPass sigs samps kdm = some r1 ∧ basePass sigs samps r1 = some r2 ∧
      ds = (propagatePass sigs.length r1 r2).map Prod.snd := by
  rcases hc : constraintPass sigs samps kdm with _ | r1
  · exfalso
    have hx : resolvedDelays sigs samps kdm = none := by
      unfold resolvedDelays
      rw [hc]
      rfl
    rw [hx] at hds
    cases hds
  · rcases hb : basePass sigs samps r1 with _ | r2
    · exfalso
      have hx : resolvedDelays sigs samps kdm = none := by
        unfold resolvedDelays
        rw [hc]
        show (basePass sigs samps r1 >>= fun r2 =>
          pure ((propagatePass sigs.length r1 r2).map Prod.snd)) = none
        rw [hb]
        rfl
      rw [hx] at hds
      cases hds
    · refine ⟨r1, r2, rfl, hb, ?_⟩
      have hx : resolvedDelays sigs samps kdm =
          some ((propagatePass sigs.length r1 r2).map Prod.snd) := by
        unfold resolvedDelays
        rw [hc]
        show (basePass sigs samps r1 >>= fun r2 =>
          pure ((propagatePass sigs.length r1 r2).map Prod.snd)) =
          some ((propagatePass sigs.length r1 r2).map Prod.snd)
        rw [hb]
        rfl
      rw [hx] at hds
      exact (Option.some.inj hds).symm

theorem resolvedDelays_length (sigs : List Sig) (samps : Rat) (kdm : List KdmEntry)
    (ds : List Rat) (h1 : 1 ≤ sigs.length)
    (hds : resolvedDelays sigs samps kdm = some ds) : ds.length = sigs.length := by
  rcases resolvedDelays_parts sigs samps kdm ds hds with ⟨r1, r2, _, hb, hdseq⟩
  unfold basePass at hb
  rcases basePass_fold_eq sigs samps r1 (sigs.length - 1) r2 hb with ⟨hr2eq, _⟩
  subst hr2eq
  have hkeys : ∀ i, i < sigs.length - 1 →
      (((0 : Nat), i + 1) : Nat × Nat) ∈
        ((((0, 0), (0 : Rat)) ::
          (List.range (sigs.length - 1)).map
            (fun i => ((0, i + 1), baseValD sigs samps r1 i))).map Prod.fst) := by
    intro i hi
    rw [explicit_map_fst]
    exact List.mem_cons_of_mem _ (List.mem_map.mpr ⟨i, List.mem_range.mpr hi, rfl⟩)
  have hpm := propagatePass_map_fst sigs.length r1 _ hkeys
  have hlen : (propagatePass sigs.length r1
      (((0, 0), (0 : Rat)) ::
        (List.range (sigs.length - 1)).map
          (fun i => ((0, i + 1), baseValD sigs samps r1 i)))).length =
      sigs.length := by
    have h2 := congrArg List.length hpm
    simp only [List.length_map] at h2
    rw [h2]
    simp only [List.length_cons, List.length_map, List.length_range]
    omega
  rw [hdseq, List.length_map, hlen]

/-- C1: for every successful resolution over N files, alignCore returns
pad and trim vectors of length N in input order with
pad[i] = delay[i] - min(delay), trim[i] = max(pad) - pad[i],
min(pad) = 0, min(trim) = 0 and all entries non-negative. -/
theorem alignCore_pad_trim (sigs : List Sig) (samps : Rat) (kdm : List KdmEntry)
    (ds : List Rat) (h2 : 2 ≤ sigs.length)
    (hds : resolvedDelays sigs samps kdm = some ds) :
    ∃ p t, alignCore sigs samps kdm = some (p, t) ∧
      ds.length = sigs.length ∧ p.length = sigs.length ∧ t.length = sigs.length ∧
      (∀ i, i < sigs.length → p.getD i 0 = ds.getD i 0 - npMin ds) ∧
      (∀ i, i < sigs.length → t.getD i 0 = npMax p - p.getD i 0) ∧
      npMin p = 0 ∧ npMin t = 0 ∧ (∀ x ∈ p, 0 ≤ x) ∧ (∀ x ∈ t, 0 ≤ x) := by
  have hdslen : ds.length = sigs.length :=
    resolvedDelays_length sigs samps kdm ds (by omega) hds
  have hdsne : ds ≠ [] := by
    intro hnil
    rw [hnil] at hdslen
    simp at hdslen
    omega
  refine ⟨ds.map (fun d => d - npMin ds),
    (ds.map (fun d => d - npMin ds)).map
      (fun p => -(p - npMax (ds.map (fun d => d - npMin ds)))), ?_, hdslen, ?_, ?_, ?_, ?_, ?_, ?_, ?_, ?_⟩
  · unfold alignCore
    rw [hds]
    rfl
  · rw [List.length_map, hdslen]
  · rw [List.length_map, List.length_map, hdslen]
  · intro i hi
    have hilt : i < ds.length := by omega
    rw [List.getD_eq_getElem _ _ (by rw [List.length_map]; exact hilt),
      List.getD_eq_getElem _ _ hilt, List.getElem_map]
  · intro i hi
    have hilt : i < ds.length := by omega
    have hilt2 : i < (ds.map (fun d => d - npMin ds)).length := by
      rw [List.length_map]
      exact hilt
    rw [List.getD_eq_getElem _ _ (by rw [List.length_map]; exact hilt2),
      List.getD_eq_getElem _ _ hilt2, List.getElem_map]
    ring
  · apply npMin_nonneg_of
    · intro x hx
      rcases List.mem_map.mp hx with ⟨d, hd, rfl⟩
      have := npMin_le ds d hd
      linarith
    · have hmem := npMin_mem ds hdsne
      exact List.mem_map.mpr ⟨npMin ds, hmem, by ring⟩
  · apply npMin_nonneg_of
    · intro x hx
      rcases List.mem_map.mp hx with ⟨p, hp, rfl⟩
      have := npMax_ge (ds.map (fun d => d - npMin ds)) p hp
      linarith
    · have hpne : ds.map (fun d => d - npMin ds) ≠ [] := by
        intro hnil
        exact hdsne (List.map_eq_nil_iff.mp hnil)
      have hmem := npMax_mem (ds.map (fun d => d - npMin ds)) hpne
      exact List.mem_map.mpr ⟨npMax (ds.map (fun d => d - npMin ds)), hmem, by ring⟩
  · intro x hx
    rcases List.mem_map.mp hx with ⟨d, hd, rfl⟩
    have := npMin_le ds d hd
    linarith
  · intro x hx
    rcases List.mem_map.mp hx with ⟨p, hp, rfl⟩
    have := npMax_ge (ds.map (fun d => d - npMin ds)) p hp
    linarith

theorem alignCore_pad_trim_witness :
    ∃ p t, alignCore [[(0, [0])], [(0, [3])]] 1 [] = some (p, t) ∧
      ([(0 : Rat), -3]).length = ([[(0, [0])], [(0, [3])]] : List Sig).length ∧
      p.length = ([[(0, [0])], [(0, [3])]] : List Sig).length ∧
      t.length = ([[(0, [0])], [(0, [3])]] : List Sig).length ∧
      (∀ i, i < ([[(0, [0])], [(0, [3])]] : List Sig).length →
        p.getD i 0 = ([(0 : Rat), -3]).getD i 0 - npMin [(0 : Rat), -3]) ∧
      (∀ i, i < ([[(0, [0])], [(0, [3])]] : List Sig).length →
        t.getD i 0 = npMax p - p.getD i 0) ∧
      npMin p = 0 ∧ npMin t = 0 ∧ (∀ x ∈ p, 0 ≤ x) ∧ (∀ x ∈ t, 0 ≤ x) :=
  alignCore_pad_trim [[(0, [0])], [(0, [3])]] 1 [] [(0 : Rat), -3] (by decide)
    (by with_unfolding_all decide)

theorem alignCore_none (sigs : List Sig) (samps : Rat) (kdm : List KdmEntry)
    (h : resolvedDelays sigs samps kdm = none) : alignCore sigs samps kdm = none := by
  unfold alignCore
  rw [h]
  rfl

theorem resolvedDelays_none_of_constraint (sigs : List Sig) (samps : Rat)
    (kdm : List KdmEntry) (h : constraintPass sigs samps kdm = none) :
    resolvedDelays sigs samps kdm = none := by
  unfold resolvedDelays
  rw [h]
  rfl

theorem resolvedDelays_none_of_base (sigs : List Sig) (samps : Rat) (kdm : List KdmEntry)
    (r1 : DelayMap) (h1 : constraintPass sigs samps kdm = some r1)
    (h2 : basePass sigs samps r1 = none) : resolvedDelays sigs samps kdm = none := by
  unfold resolvedDelays
  rw [h1]
  show (basePass sigs samps r1 >>= fun r2 =>
    pure ((propagatePass sigs.length r1 r2).map Prod.snd)) = none
  rw [h2]
  rfl

/-- C2: find_delay raises the no-correlation error exactly when the two
signatures share no frequency key; a failing call made while resolving
a known-delay constraint, or while computing a base-relative delay that
no constraint covers, aborts the whole resolution: alignCore returns
none and no partial result. -/
theorem no_correlation_spec :
    (∀ (orig sample : Sig) (mn mx : Option Rat),
      find_delay orig sample mn mx = .noCorrelation ↔ sharedKeys orig sample = []) ∧
    (∀ (sigs : List Sig) (samps : Rat) (kdm : List KdmEntry) (e : KdmEntry),
      e ∈ kdm → e.target < sigs.length → e.base < sigs.length →
      sharedKeys (sigs.getD e.base []) (sigs.getD e.target []) = [] →
      alignCore sigs samps kdm = none) ∧
    (∀ (sigs : List Sig) (samps : Rat) (kdm : List KdmEntry) (r1 : DelayMap) (i : Nat),
      constraintPass sigs samps kdm = some r1 → i < sigs.length - 1 →
      hasPair r1 (0, i + 1) = false → hasPair r1 (i + 1, 0) = false →
      sharedKeys (sigs.getD 0 []) (sigs.getD (i + 1) []) = [] →
      alignCore sigs samps kdm = none) := by
  have hiff : ∀ (orig sample : Sig) (mn mx : Option Rat),
      find_delay orig sample mn mx = .noCorrelation ↔ sharedKeys orig sample = [] := by
    intro orig sample mn mx
    constructor
    · intro h
      unfold find_delay at h
      split at h
      · assumption
      · split at h <;> cases h
    · intro h
      unfold find_delay
      rw [if_pos h]
  refine ⟨hiff, ?_, ?_⟩
  · intro sigs samps kdm e he ht hb hsh
    have hstep : ∀ acc, constraintStep sigs samps acc e = none := by
      intro acc
      unfold constraintStep
      rw [if_pos ⟨ht, hb⟩, (hiff _ _ _ _).mpr hsh]
    exact alignCore_none sigs samps kdm
      (resolvedDelays_none_of_constraint sigs samps kdm
        (foldlM_none (constraintStep sigs samps) e hstep kdm [] he))
  · intro sigs samps kdm r1 i hcp hi hp1 hp2 hsh
    have hstep : ∀ acc, baseStep sigs samps r1 acc i = none := by
      intro acc
      unfold baseStep
      rw [if_neg (by simp [hp1]), if_neg (by simp [hp2]), (hiff _ _ _ _).mpr hsh]
    exact alignCore_none sigs samps kdm
      (resolvedDelays_none_of_base sigs samps kdm r1 hcp
        (foldlM_none (baseStep sigs samps r1) i hstep (List.range (sigs.length - 1))
          [((0, 0), (0 : Rat))] (List.mem_range.mpr hi)))

theorem no_correlation_spec_witness :
    alignCore [[(0, [0])], [(1, [0])]] 1 [⟨1, 0, none, none⟩] = none :=
  no_correlation_spec.2.1 [[(0, [0])], [(1, [0])]] 1 [⟨1, 0, none, none⟩]
    ⟨1, 0, none, none⟩ (by simp) (by decide) (by decide) (by with_unfolding_all decide)

/-- C4 code bug evaluation: three files with signatures making the
direct detections d1 = find(0,1) = 1, d2 = find(0,2) = 5 and the
constrained detection find(1,2) = 4 (so result1[(1,2)] = v = -4 seconds,
d1 = -1, d2 = -5 seconds at samps_per_sec = 1).  The claim (and the
source comment "[0, 2] must be calculated by [0, 1], and [1, 2]")
demands delay[2] = d1 - v = 3.  The code instead first rewrites
delay[1] := delay[2] + v = -9 using file 2's direct detection (the
symmetric branch fires at inner index 0), then restores
delay[2] := delay[1] - v = -5, the direct value: file 1's independently
computed delay never influences the output. -/
theorem chain_propagation_bug :
    find_delay [(0, [0])] [(0, [1])] none none = .ok 1 ∧
    find_delay [(0, [0])] [(0, [5])] none none = .ok 5 ∧
    find_delay [(0, [1])] [(0, [5])] none none = .ok 4 ∧
    resolvedDelays [[(0, [0])], [(0, [1])], [(0, [5])]] 1 [⟨2, 1, none, none⟩] =
      some [0, -9, -5] ∧
    ((-5 : Rat) ≠ (-1 : Rat) - (-4 : Rat)) := by
  with_unfolding_all decide

/-- C9 counterexample: align.py keys the cache on os.path.getatime, the
access time, not the modification time.  With identical parameters,
path and modification time but different access times the keys differ;
changing only the modification time leaves the key unchanged. -/
theorem cache_key_mtime_counterexample :
    (alignCacheKey ⟨48000, 0, "", 1024, 0, 512, 43, 7⟩ ⟨"a.mp4", 0, 0⟩ ≠
      alignCacheKey ⟨48000, 0, "", 1024, 0, 512, 43, 7⟩ ⟨"a.mp4", 0, 1⟩) ∧
    (alignCacheKey ⟨48000, 0, "", 1024, 0, 512, 43, 7⟩ ⟨"a.mp4", 0, 5⟩ =
      alignCacheKey ⟨48000, 0, "", 1024, 0, 512, 43, 7⟩ ⟨"a.mp4", 1, 5⟩) := by
  constructor
  · intro h
    have h2 : (0 : Int) = 1 := congrArg CacheArgs.atime h
    exact absurd h2 (by decide)
  · rfl

/-- C9 amended: the cache key is derived deterministically from exactly
the extraction parameters, the file path and the file access time - two
keys agree precisely when those three inputs agree - so the file
modification time never enters the key. -/
theorem cache_key_spec (p q : ExtractParams) (f g : FileStat) :
    alignCacheKey p f = alignCacheKey q g ↔
      p = q ∧ f.path = g.path ∧ f.atime = g.atime := by
  unfold alignCacheKey make_cache_key
  constructor
  · intro h
    exact ⟨congrArg CacheArgs.params h, congrArg CacheArgs.path h,
      congrArg CacheArgs.atime h⟩
  · rintro ⟨h1, h2, h3⟩
    rw [h1, h2, h3]

end AlignVideos
